import Mathlib

/-!
# Verification of the named-mode tensor algebra engine (lib/NQobj.py)

Shallow embedding of the `NQobj` class and its helper functions.  A backend
object (qutip `Qobj`) is modelled as a pair of axis dimension vectors plus an
entry function on digit (multi-index) vectors; the backend primitives the
engine consumes (tensor product, matrix product, coordinate permutation,
partial trace, identity and basis constructors) are modelled at that level.
The name-resolution, expansion, permutation and arithmetic layers are
translated statement by statement from the Python source.

Conventions:
* machine integers are `Nat`; numeric entries are `ℚ` (the field is irrelevant
  to the claims, which concern names, dimensions, kinds and error behaviour,
  plus pointwise numeric identities that hold over any commutative ring);
* fallible Python code (raised exceptions) returns `Except Err`;
* Python `dict.fromkeys` de-duplication is `pyDedup` (keeps first occurrence);
* Python `set` differences (whose iteration order is implementation defined)
  are modelled with a fixed, documented order.
-/

abbrev ModeName := String

inductive Kind where
  | oper
  | state
  deriving DecidableEq

inductive Err where
  | value (msg : String)
  | typeE (msg : String)
  | attr (msg : String)
  | assertE (msg : String)
  deriving DecidableEq

/-- Backend numeric object: dimension vectors per axis, an entry function on
digit vectors (row digits, column digits), and the backend's cached
hermiticity flag (`Qobj.isherm`, a backend primitive). -/
structure Qobj where
  dims0 : List Nat
  dims1 : List Nat
  entry : List Nat → List Nat → ℚ
  herm : Bool

inductive QType where
  | bra
  | ket
  | oper
  deriving DecidableEq

/-- Backend structural type, determined from the dimension vectors the way
qutip derives `Qobj.type` (a 1x1 object is bra-like). -/
def Qobj.qtype (q : Qobj) : QType :=
  if q.dims0.prod = 1 then .bra
  else if q.dims1.prod = 1 then .ket
  else .oper

def Qobj.shape (q : Qobj) : Nat × Nat := (q.dims0.prod, q.dims1.prod)

/-- The Named Tensor: backend object, per-axis name lists, kind tag. -/
structure NQ where
  q : Qobj
  names0 : List ModeName
  names1 : List ModeName
  kind : Kind

/-- `NQobj.shape_dims`. -/
def NQ.shapeDims (x : NQ) : Nat × Nat := (x.q.dims0.length, x.q.dims1.length)

/-- `list(dict.fromkeys(l))`: remove duplicates keeping the first
occurrence. -/
def pyDedup : List ModeName → List ModeName
  | [] => []
  | a :: l => a :: (pyDedup l).filter (fun b => b ≠ a)

/-- All digit vectors for a dimension vector (mixed-radix enumeration). -/
def allDigits : List Nat → List (List Nat)
  | [] => [[]]
  | d :: ds => (List.range d).flatMap (fun i => (allDigits ds).map (fun t => i :: t))

/-- Backend Kronecker product of two objects (dimension vectors concatenate,
entries multiply on the split digit vectors). -/
def tensorQ (a b : Qobj) : Qobj :=
  ⟨a.dims0 ++ b.dims0, a.dims1 ++ b.dims1,
   fun r c => a.entry (r.take a.dims0.length) (c.take a.dims1.length) *
              b.entry (r.drop a.dims0.length) (c.drop a.dims1.length),
   a.herm && b.herm⟩

/-- Empty tensor factor (unit for the modelled Kronecker product). -/
def unitQ : Qobj := ⟨[], [], fun _ _ => 1, true⟩

/-- `qt.tensor(*args)` on backend objects, modelled as a right fold of binary
Kronecker products (Kronecker product is associative on entries). -/
def qtensorList : List Qobj → Qobj
  | [] => unitQ
  | x :: xs => tensorQ x (qtensorList xs)

/-- Backend addition: requires equal dims, entries add pointwise. -/
def qAdd (a b : Qobj) : Except Err Qobj :=
  if a.dims0 = b.dims0 ∧ a.dims1 = b.dims1 then
    .ok ⟨a.dims0, a.dims1, fun r c => a.entry r c + b.entry r c, a.herm && b.herm⟩
  else .error (.typeE "Incompatible Qobj shapes for addition")

/-- Backend matrix product: requires the contracted dimension vectors to
match; result dims are `[self.dims[0], other.dims[1]]` and entries contract
over the shared digit vectors. -/
def qMul (a b : Qobj) : Except Err Qobj :=
  if a.dims1 = b.dims0 then
    .ok ⟨a.dims0, b.dims1,
         fun r c => ((allDigits a.dims1).map (fun t => a.entry r t * b.entry t c)).sum,
         false⟩
  else .error (.typeE "Incompatible Qobj shapes for multiplication")

/-- Inverse digit transport for an index permutation `sg` of `range n`:
position `j` of the original object reads the permuted digit vector at the
position where `sg` placed `j` (the semantics of the backend
`cy_index_permute` coordinate remap used by `_permute2`). -/
def unperm (sg : List Nat) (n : Nat) (v : List Nat) : List Nat :=
  (List.range n).map (fun j => v.getD (sg.indexOf j) 0)

/-- Backend coordinate permutation (`_permute2` / `cy_index_permute`): new
dimension vector `k ↦ dims[sg k]` per axis, entries transported
accordingly. -/
def permB (q : Qobj) (sg0 sg1 : List Nat) : Qobj :=
  ⟨sg0.map (fun i => q.dims0.getD i 0), sg1.map (fun i => q.dims1.getD i 0),
   fun r c => q.entry (unperm sg0 q.dims0.length r) (unperm sg1 q.dims1.length c),
   q.herm⟩

/-- `qt.qeye(d)`. -/
def eyeQ (d : Nat) : Qobj :=
  ⟨[d], [d], fun r c => if r.getD 0 0 = c.getD 0 0 then 1 else 0, true⟩

/-- `qt.basis(d, 0)` (column vector `e₀`). -/
def ketQ (d : Nat) : Qobj :=
  ⟨[d], [1], fun r _ => if r.getD 0 0 = 0 then 1 else 0, false⟩

/-- `qt.basis(d, 0).dag()` (row vector `e₀†`). -/
def braQ (d : Nat) : Qobj :=
  ⟨[1], [d], fun _ c => if c.getD 0 0 = 0 then 1 else 0, false⟩

/-- `qt.basis(d0, 0) * qt.basis(d1, 0).dag()`. -/
def dm00Q (d0 d1 : Nat) : Qobj :=
  ⟨[d0], [d1], fun r c => if r.getD 0 0 = 0 ∧ c.getD 0 0 = 0 then 1 else 0, false⟩

/-- Interleave kept digits `r` and traced digits `t` according to a keep
mask. -/
def mergeDigits : List Bool → List Nat → List Nat → List Nat
  | [], _, _ => []
  | true :: ms, r, t => r.headD 0 :: mergeDigits ms r.tail t
  | false :: ms, r, t => t.headD 0 :: mergeDigits ms r t.tail

/-- Backend partial trace (`Qobj.ptrace`): keep the modes whose position is in
`sel`, sum entries over all digit assignments of the discarded modes. -/
def ptraceB (q : Qobj) (sel : List Nat) : Qobj :=
  let n := q.dims0.length
  let mask := (List.range n).map (fun i => decide (i ∈ sel))
  let keptDims := ((List.range n).filter (fun i => decide (i ∈ sel))).map
      (fun i => q.dims0.getD i 0)
  let trDims := ((List.range n).filter (fun i => decide (i ∉ sel))).map
      (fun i => q.dims0.getD i 0)
  ⟨keptDims, keptDims,
   fun r c => ((allDigits trDims).map
      (fun t => q.entry (mergeDigits mask r t) (mergeDigits mask c t))).sum,
   q.herm⟩

/-- Backend adjoint: axes swap; complex conjugation is trivial over the
modelled rational entries. -/
def dagQ (q : Qobj) : Qobj := ⟨q.dims1, q.dims0, fun r c => q.entry c r, q.herm⟩

/-- Backend transpose: axes swap without conjugation. -/
def transQ (q : Qobj) : Qobj := ⟨q.dims1, q.dims0, fun r c => q.entry c r, q.herm⟩

/-- Backend scalar multiple. -/
def smulQ (k : ℚ) (q : Qobj) : Qobj :=
  ⟨q.dims0, q.dims1, fun r c => k * q.entry r c, q.herm⟩

/-- Backend projector from a ket or bra: `|v⟩⟨v|`. -/
def projQ (q : Qobj) : Qobj :=
  if q.qtype = .ket then
    ⟨q.dims0, q.dims0,
     fun r c => q.entry r (q.dims1.map (fun _ => 0)) * q.entry c (q.dims1.map (fun _ => 0)),
     true⟩
  else
    ⟨q.dims1, q.dims1,
     fun r c => q.entry (q.dims0.map (fun _ => 0)) r * q.entry (q.dims0.map (fun _ => 0)) c,
     true⟩

/-- Backend normalization (`Qobj.unit`): dimension-preserving; the numeric
scaling is a backend primitive outside the engine (no claim concerns it), so
it is modelled as dimension-faithful. -/
def unitB (q : Qobj) : Qobj := ⟨q.dims0, q.dims1, q.entry, q.herm⟩

/-- Backend matrix exponential: dimension-preserving; the numeric content is
a backend primitive outside the engine (no claim concerns it). -/
def expmB (q : Qobj) : Qobj := ⟨q.dims0, q.dims1, q.entry, q.herm⟩

/-- Backend integer power (`Qobj.__pow__`): requires square structure. -/
def powQiter (q : Qobj) : Nat → Qobj
  | 0 => ⟨q.dims0, q.dims1, fun r c => if r = c then 1 else 0, true⟩
  | n + 1 =>
      ⟨q.dims0, q.dims1,
       fun r c => ((allDigits q.dims1).map
          (fun t => q.entry r t * (powQiter q n).entry t c)).sum,
       q.herm⟩

def powB (q : Qobj) (n : Nat) : Except Err Qobj :=
  if q.dims0 = q.dims1 then .ok (powQiter q n)
  else .error (.typeE "Raising a Qobj to some power works only for operators")

/-- The `names` argument accepted by the `NQobj` constructor: a string, a
flat list, a pair of lists, or absent. -/
inductive NamesArg where
  | sstr (s : ModeName)
  | flat (l : List ModeName)
  | pairL (l0 l1 : List ModeName)
  | noneA

/-- Kind resolution, `NQobj.__init__` lines 73-84: explicit kind is stored;
otherwise kets and bras infer `state`, and operators infer `oper` unless the
object is name-symmetric, dimension-balanced and hermitian, in which case the
constructor raises (ambiguous kind). -/
def finishKind (q : Qobj) (l0 l1 : List ModeName) (kd : Option Kind) : Except Err NQ :=
  match kd with
  | some k => .ok ⟨q, l0, l1, k⟩
  | none =>
      if q.qtype = .ket ∨ q.qtype = .bra then .ok ⟨q, l0, l1, .state⟩
      else
        if (l0.all (fun nm => decide (nm ∈ l1)) ∧ l1.all (fun nm => decide (nm ∈ l0)))
            ∧ (q.dims0 : Multiset Nat) = (q.dims1 : Multiset Nat) ∧ q.herm then
          .error (.value "The kind cannot be determined automatically and should be provedid as kw")
        else .ok ⟨q, l0, l1, .oper⟩

/-- `NQobj.__init__` lines 47-71: normalize the `names` argument to the
two-list form and validate (duplicate names, name count versus
`shape_dims`); names being strings is enforced by the Lean types. -/
def mkNQ (q : Qobj) (na : NamesArg) (kd : Option Kind) : Except Err NQ :=
  match na with
  | .noneA => .error (.attr "names is a compulsary attribute.")
  | .pairL l0 l1 =>
      if ¬ l0.Nodup ∨ ¬ l1.Nodup then .error (.value "Do not use duplicate names.")
      else if ¬ (l0.length = q.dims0.length ∧ l1.length = q.dims1.length) then
        .error (.value "The number of names must match the shape_dims.")
      else finishKind q l0 l1 kd
  | .flat l =>
      if ¬ l.Nodup then .error (.value "Do not use duplicate names.")
      else if ¬ (l.length = q.dims0.length ∧ l.length = q.dims1.length) then
        .error (.value "The number of names must match the shape_dims.")
      else finishKind q l l kd
  | .sstr s =>
      if ¬ (q.dims0.length = 1 ∧ q.dims1.length = 1) then
        .error (.value "Names can only be a string if there shape_dims is (1, 1).")
      else finishKind q [s] [s] kd

/-- `NQobj._dim_of_name`: per-axis dimension of a mode, `none` when the name
is absent from that axis. -/
def NQ.dimOf (x : NQ) (nm : ModeName) : Option Nat × Option Nat :=
  ((if nm ∈ x.names0 then some (x.q.dims0.getD (x.names0.indexOf nm) 0) else none),
   (if nm ∈ x.names1 then some (x.q.dims1.getD (x.names1.indexOf nm) 0) else none))

/-- `NQobj.copy`. -/
def NQ.copy (x : NQ) : Except Err NQ :=
  mkNQ x.q (.pairL x.names0 x.names1) (some x.kind)

/-- Module-level `tensor(*args)`: concatenate per-axis name lists, Kronecker
the backend objects, require all kinds equal, and construct (the constructor
re-validates the names). -/
def tensorN : List NQ → Except Err NQ
  | [] => .error (.typeE "tensor requires at least one operand")
  | x :: xs =>
      let q := qtensorList ((x :: xs).map (fun y => y.q))
      if xs.all (fun y => decide (y.kind = x.kind)) then
        mkNQ q (.pairL (((x :: xs).map (fun y => y.names0)).flatten)
                       (((x :: xs).map (fun y => y.names1)).flatten)) (some x.kind)
      else .error (.attr "For tensor product the kind of all NQobj should be the same.")

/-- `_add_find_required_names`: per-axis concatenation left-then-right,
duplicates removed keeping first occurrence. -/
def addReq (a b : NQ) : List ModeName × List ModeName :=
  (pyDedup (a.names0 ++ b.names0), pyDedup (a.names1 ++ b.names1))

/-- `_find_missing_names`: per axis, the required names absent from the
operand.  The source materializes a Python set difference (iteration order
implementation defined); modelled in required-list order. -/
def findMissing (n0 n1 req0 req1 : List ModeName) : List ModeName × List ModeName :=
  (req0.filter (fun nm => decide (nm ∉ n0)), req1.filter (fun nm => decide (nm ∉ n1)))

/-- `_find_missing_dict`: for each missing name (the source iterates a Python
set, modelled in first-occurrence order) look the dimensions up on the other
operand, blank the axes on which the name is not missing, and reverse the
pair for multiplication. -/
def findMissingDict (miss : List ModeName × List ModeName) (other : NQ) (tr : Bool) :
    List (ModeName × (Option Nat × Option Nat)) :=
  (pyDedup (miss.1 ++ miss.2)).map (fun nm =>
    let d := other.dimOf nm
    let d0 := if nm ∈ miss.1 then d.1 else none
    let d1 := if nm ∈ miss.2 then d.2 else none
    (nm, if tr then (d1, d0) else (d0, d1)))

/-- One filler mode of `_adding_missing_modes`: an identity for `oper` kind
(asserting squareness), a basis outer product / ket / bra for `state` kind.
The bra case hands `names=[[],[name]]` to the constructor, which rejects it
(name count 0 versus the bra's one row axis), faithfully to the source. -/
def fillerMode (nm : ModeName) (dims : Option Nat × Option Nat) (kd : Kind) :
    Except Err NQ :=
  match kd with
  | .oper =>
      if dims.1 = dims.2 then
        match dims.1 with
        | some d => mkNQ (eyeQ d) (.sstr nm) (some .oper)
        | none => .error (.typeE "qeye dimension is None")
      else .error (.assertE "For adding eye matrixes they need to be square")
  | .state =>
      match dims.1, dims.2 with
      | some d0, some d1 => mkNQ (dm00Q d0 d1) (.sstr nm) (some .state)
      | none, some d1 => mkNQ (braQ d1) (.pairL [] [nm]) (some .state)
      | some d0, none => mkNQ (ketQ d0) (.sstr nm) (some .state)
      | none, none => .error (.typeE "basis dimension is None")

/-- `_adding_missing_modes`: build a filler for every dictionary entry and
tensor them onto the operand (the source's unused `names` parameter is
dropped). -/
def addingMissingModes (x : NQ) (dict : List (ModeName × (Option Nat × Option Nat)))
    (kd : Kind) : Except Err NQ := do
  let modes ← dict.mapM (fun p => fillerMode p.1 p.2 kd)
  tensorN (x :: modes)

/-- `NQobj.permute` on a resolved pair of name orders (the source's
two-list branch; the flat-list branch reduces to it with the same list on
both axes).  A requested name absent from its axis raises, as `list.index`
does. -/
def permPair (x : NQ) (n0 n1 : List ModeName) : Except Err NQ :=
  if (∀ nm ∈ n0, nm ∈ x.names0) ∧ (∀ nm ∈ n1, nm ∈ x.names1) then
    let sg0 := n0.map (fun nm => x.names0.indexOf nm)
    let sg1 := n1.map (fun nm => x.names1.indexOf nm)
    mkNQ (permB x.q sg0 sg1)
         (.pairL (sg0.map (fun i => x.names0.getD i ""))
                 (sg1.map (fun i => x.names1.getD i "")))
         (some x.kind)
  else .error (.value "name is not in list")

/-- Order argument of `NQobj.permute`: a flat name list or a pair of name
lists (positional-integer orders are not exercised by the claims). -/
inductive POrder where
  | flat (l : List ModeName)
  | pairO (l0 l1 : List ModeName)

/-- `NQobj.permute`: the flat form resolves against each axis (identically on
both axes whether or not the two name lists coincide), the pair form per
axis. -/
def permuteE (x : NQ) : POrder → Except Err NQ
  | .flat l => permPair x l l
  | .pairO l0 l1 => permPair x l0 l1

/-- Result of Python `__add__`: a value, a raised error, the `NotImplemented`
sentinel, or `None` (falling off the end of the function). -/
inductive AddRet where
  | okv (x : NQ)
  | err (e : Err)
  | notImpl
  | pyNone

/-- Right operand of an arithmetic dunder: a Named Tensor, a number, a bare
backend object, or anything else. -/
inductive PyVal where
  | nq (x : NQ)
  | num (k : ℚ)
  | qob (q : Qobj)
  | otherV

/-- The `NQobj + NQobj` pipeline (`__add__` lines 100-111): resolve required
names, expand each operand with fillers sized from the other operand,
permute both to the required order, add on the backend, re-wrap. -/
def addPipeline (a b : NQ) : Except Err NQ := do
  let n := addReq a b
  let missA := findMissing a.names0 a.names1 n.1 n.2
  let missB := findMissing b.names0 b.names1 n.1 n.2
  let dictA := findMissingDict missA b false
  let dictB := findMissingDict missB a false
  let ea ← addingMissingModes a dictA a.kind
  let pa ← permPair ea n.1 n.2
  let eb ← addingMissingModes b dictB b.kind
  let pb ← permPair eb n.1 n.2
  let s ← qAdd pa.q pb.q
  mkNQ s (.pairL n.1 n.2) (some a.kind)

/-- `NQobj.__add__` on a Named Tensor right operand: type and kind must
match; ket, bra and oper shapes run the pipeline; anything else evaluates
`NotImplemented` without returning it (the function then returns `None`). -/
def addE (a b : NQ) : AddRet :=
  if a.q.qtype ≠ b.q.qtype then
    .err (.value "Addition and substraction are only allowed for two NQobj of the same type.")
  else if a.kind ≠ b.kind then
    .err (.value "Addition and substraction are only allowed for two NQobj of the same kind.")
  else if a.q.qtype = .ket ∨ a.q.qtype = .bra ∨ a.q.qtype = .oper then
    match addPipeline a b with
    | .ok x => .okv x
    | .error e => .err e
  else .pyNone

/-- `NQobj.__add__` dispatch: a non-`NQobj` right operand falls to the
`else` branch, which evaluates `NotImplemented` as a bare statement and
returns `None`. -/
def addFull (x : NQ) (o : PyVal) : AddRet :=
  match o with
  | .nq y => addE x y
  | _ => .pyNone

/-- The overlap list of `_mul_find_required_names`: the right operand's row
names with row dimension other than 1, and the left operand's column names
with column dimension other than 1; right-then-left when the right operand is
`state` and the left is `oper`, else left-then-right; duplicates removed
keeping first occurrence. -/
def mulOverlap (a b : NQ) : List ModeName :=
  let nR := b.names0.filter (fun nm => decide (¬ (b.dimOf nm).1 = some 1))
  let nL := a.names1.filter (fun nm => decide (¬ (a.dimOf nm).2 = some 1))
  if b.kind = .state ∧ a.kind = .oper then pyDedup (nR ++ nL) else pyDedup (nL ++ nR)

/-- `_mul_find_required_names`: per operand and axis, the overlap first,
then the operand's own names, duplicates removed keeping first
occurrence. -/
def mulReq (a b : NQ) :
    (List ModeName × List ModeName) × (List ModeName × List ModeName) :=
  let ov := mulOverlap a b
  ((pyDedup (ov ++ a.names0), pyDedup (ov ++ a.names1)),
   (pyDedup (ov ++ b.names0), pyDedup (ov ++ b.names1)))

/-- The name-dropping loop of `__mul__` lines 139-142: iterate over a copy of
the result's row names; a name whose row dimension on the expanded left
operand and column dimension on the expanded right operand are both 1 is
removed from both result name lists (`list.remove` raises when the name is
absent from the column list). -/
def dropLoop (aE bE : NQ) : List ModeName → List ModeName × List ModeName →
    Except Err (List ModeName × List ModeName)
  | [], st => .ok st
  | nm :: rest, (n0, n1) =>
      if (aE.dimOf nm).1 = some 1 ∧ (bE.dimOf nm).2 = some 1 then
        if nm ∈ n1 then dropLoop aE bE rest (n0.erase nm, n1.erase nm)
        else .error (.value "list.remove(x): x not in list")
      else dropLoop aE bE rest (n0, n1)

/-- Result of Python `__mul__`: a Named Tensor, a bare backend scalar (the
1x1 branch), a bare backend object (the `Qobj` right-operand branch), a
raised error, or `None`. -/
inductive MulRet where
  | nqr (x : NQ)
  | scalar (q : Qobj)
  | qres (q : Qobj)
  | err (e : Err)
  | pyNone

/-- The expansion-and-alignment prefix of the `NQobj * NQobj` pipeline
(`__mul__` lines 122-130). -/
def mulAligned (a b : NQ) : Except Err (NQ × NQ) := do
  let ns := mulReq a b
  let missA := findMissing a.names0 a.names1 ns.1.1 ns.1.2
  let missB := findMissing b.names0 b.names1 ns.2.1 ns.2.2
  let dictA := findMissingDict missA b true
  let dictB := findMissingDict missB a true
  let ea ← addingMissingModes a dictA a.kind
  let pa ← permPair ea ns.1.1 ns.1.2
  let eb ← addingMissingModes b dictB b.kind
  let pb ← permPair eb ns.2.1 ns.2.2
  return (pa, pb)

/-- The backend product the `NQobj * NQobj` pipeline computes (`__mul__`
line 131). -/
def mulBackend (a b : NQ) : Except Err Qobj := do
  let pr ← mulAligned a b
  qMul pr.1.q pr.2.q

/-- The `NQobj * NQobj` pipeline (`__mul__` lines 121-151): align, multiply
on the backend; a 1x1 result is returned as a bare backend scalar, otherwise
row names come from the left required order and column names from the right,
scalar-contracted names are dropped, and the result kind is `oper` when both
operands are `oper` or both are `state`, else `state`. -/
def mulPipeline (a b : NQ) : Except Err MulRet := do
  let ns := mulReq a b
  let pr ← mulAligned a b
  let qr ← qMul pr.1.q pr.2.q
  if qr.dims0.prod = 1 ∧ qr.dims1.prod = 1 then
    return .scalar qr
  else do
    let nn ← dropLoop pr.1 pr.2 ns.1.1 (ns.1.1, ns.2.2)
    let kd := if a.kind = .oper ∧ b.kind = .oper then Kind.oper
              else if a.kind = .state ∧ b.kind = .state then Kind.oper
              else Kind.state
    let res ← mkNQ qr (.pairL nn.1 nn.2) (some kd)
    return .nqr res

/-- `NQobj.__mul__` dispatch: Named Tensor operand runs the pipeline, a
number scales, a bare backend object multiplies on the backend, anything
else evaluates `NotImplemented` without returning it. -/
def mulFull (x : NQ) (o : PyVal) : MulRet :=
  match o with
  | .nq y =>
      match mulPipeline x y with
      | .ok r => r
      | .error e => .err e
  | .num k =>
      match mkNQ (smulQ k x.q) (.pairL x.names0 x.names1) (some x.kind) with
      | .ok z => .nqr z
      | .error e => .err e
  | .qob q =>
      match qMul x.q q with
      | .ok r => .qres r
      | .error e => .err e
  | .otherV => .pyNone

/-- `NQobj.__neg__`. -/
def NQ.neg (x : NQ) : Except Err NQ :=
  mkNQ (smulQ (-1) x.q) (.pairL x.names0 x.names1) (some x.kind)

/-- `NQobj.__pow__` (modulus argument unused by the engine). -/
def NQ.pow (x : NQ) (n : Nat) : Except Err NQ := do
  let q ← powB x.q n
  mkNQ q (.pairL x.names0 x.names1) (some x.kind)

/-- `NQobj.dag`: adjoint with the two name lists swapped. -/
def NQ.dag (x : NQ) : Except Err NQ :=
  mkNQ (dagQ x.q) (.pairL x.names1 x.names0) (some x.kind)

/-- `NQobj.trans`: transpose with the two name lists swapped. -/
def NQ.trans (x : NQ) : Except Err NQ :=
  mkNQ (transQ x.q) (.pairL x.names1 x.names0) (some x.kind)

/-- `NQobj.proj`: projector, kind forced to `oper`. -/
def NQ.proj (x : NQ) : Except Err NQ :=
  mkNQ (projQ x.q) (.pairL x.names0 x.names1) (some Kind.oper)

/-- `NQobj.unit`. -/
def NQ.unit (x : NQ) : Except Err NQ :=
  mkNQ (unitB x.q) (.pairL x.names0 x.names1) (some x.kind)

/-- Selection argument of `ptrace`: all-int list, all-str list, or not a
list (mixed lists are not representable and raise in the source as well). -/
inductive Sel where
  | ints (l : List Nat)
  | strs (l : List ModeName)
  | notList

/-- `NQobj.ptrace` (lines 223-244).  The source's first two checks construct
`ValueError('ptrace works only on a square oper')` and
`ValueError('Names of both axis are not the same')` WITHOUT raising them
(missing `raise` keyword), so no error is produced for non-square dims or
asymmetric names and execution proceeds; the embedding reproduces that. -/
def ptraceSel (x : NQ) : Sel → Except Err (List Nat)
  | .ints l => .ok l
  | .strs l =>
      if (∀ nm ∈ l, nm ∈ x.names0) then
        .ok (l.map (fun nm => x.names0.indexOf nm))
      else .error (.value "name is not in list")
  | .notList => .error (.typeE "sel needs to be a list with int or str")

def NQ.ptraceE (x : NQ) (sel : Sel) (keep : Bool) : Except Err NQ :=
  ptraceSel x sel >>= fun sel0 =>
    let sel1 := if keep then sel0
                else (List.range x.q.dims0.length).filter (fun i => decide (i ∉ sel0))
    let names := (x.names0.enum.filter (fun p => decide (p.1 ∈ sel1))).map (fun p => p.2)
    mkNQ (ptraceB x.q sel1) (.pairL names names) (some x.kind)

/-- In-place rename of one occurrence per axis (`try: ... except: pass`). -/
def renameOne (l : List ModeName) (old nw : ModeName) : List ModeName :=
  if old ∈ l then l.set (l.indexOf old) nw else l

/-- `NQobj.rename`: returns the raised error (if any) together with the
post-call object.  All checks precede any mutation in the source, so on
error the object is returned unchanged. -/
def NQ.rename (x : NQ) (old nw : ModeName) : Option Err × NQ :=
  if old = nw then (none, x)
  else if nw ∈ x.names0 ++ x.names1 then
    (some (.value "You cannot use a new_name which is already used."), x)
  else if old ∉ x.names0 ++ x.names1 then
    (some (.value "The name you want to replace is not present in the NQobj."), x)
  else (none, { x with names0 := renameOne x.names0 old nw,
                       names1 := renameOne x.names1 old nw })

/-- `qt.tensor(self, qt.basis(d))` followed by `self.dims[1].pop()`: append a
ket mode on the row axis only. -/
def appendKet (q : Qobj) (d : Nat) : Qobj :=
  ⟨q.dims0 ++ [d], q.dims1,
   fun r c => q.entry (r.take q.dims0.length) c *
              (if r.getD q.dims0.length 0 = 0 then 1 else 0),
   false⟩

/-- `qt.tensor(self, qt.basis(d).dag())` followed by `self.dims[0].pop()`:
append a bra mode on the column axis only. -/
def appendBra (q : Qobj) (d : Nat) : Qobj :=
  ⟨q.dims0, q.dims1 ++ [d],
   fun r c => q.entry r (c.take q.dims1.length) *
              (if c.getD q.dims1.length 0 = 0 then 1 else 0),
   false⟩

/-- One step of the `expand` loop: a name missing on the row axis gets a ket
filler appended (and the name appended to the row list), a name missing on
the column axis a bra filler; other dictionary entries match no branch. -/
def expandStep (st : Qobj × List ModeName × List ModeName)
    (p : ModeName × (Option Nat × Option Nat)) :
    Qobj × List ModeName × List ModeName :=
  match p.2 with
  | (none, some d1) => (appendKet st.1 d1, st.2.1 ++ [p.1], st.2.2)
  | (some d0, none) => (appendBra st.1 d0, st.2.1, st.2.2 ++ [p.1])
  | _ => st

/-- `NQobj.expand` (lines 327-345): no-op when the name lists coincide, else
pad the one-sided names with basis fillers and permute to the de-duplicated
union order (the source iterates a dict over the union; modelled in
first-occurrence order). -/
def NQ.expandE (x : NQ) : Except Err NQ :=
  if x.names0 = x.names1 then .ok x
  else do
    let req := pyDedup (x.names0 ++ x.names1)
    let miss := findMissing x.names0 x.names1 req req
    let md := (pyDedup (miss.1 ++ miss.2)).map (fun nm => (nm, x.dimOf nm))
    let fin := md.foldl expandStep (x.q, x.names0, x.names1)
    let y ← mkNQ fin.1 (.pairL fin.2.1 fin.2.2) (some x.kind)
    permuteE y (.flat req)

/-- `NQobj.expm` (lines 307-316).  On a non-square object it expands first;
the source's `new_self.permute(...)` on line 312 discards its result (permute
is not in place), so the embedding applies no permutation there. -/
def NQ.expmE (x : NQ) : Except Err NQ :=
  if x.names0 = x.names1 ∧ x.q.dims0 = x.q.dims1 then
    mkNQ (expmB x.q) (.pairL x.names0 x.names1) (some x.kind)
  else do
    let y ← x.expandE
    if y.names0 = y.names1 ∧ y.q.dims0 = y.q.dims1 then
      mkNQ (expmB y.q) (.pairL y.names0 y.names1) (some y.kind)
    else throw (.value "For exponentiation the matrix should have square submatrixes.")

/-- Backend equality (a backend primitive): equal dimension vectors and equal
entries on every length-matched pair of digit vectors. -/
def qobjEqP (a b : Qobj) : Prop :=
  a.dims0 = b.dims0 ∧ a.dims1 = b.dims1 ∧
  ∀ r c, r.length = a.dims0.length → c.length = a.dims1.length →
    a.entry r c = b.entry r c

/-- `NQobj.__eq__` (lines 181-187): backend equality AND equality of the name
lists; the `kind` tag is not consulted. -/
def nqEqP (a b : NQ) : Prop :=
  qobjEqP a.q b.q ∧ (a.names0 = b.names0 ∧ a.names1 = b.names1)

/-- The structural invariant every Named Tensor satisfies: names unique per
axis and length-matched to the dimension vectors. -/
def NQInv (x : NQ) : Prop :=
  x.names0.Nodup ∧ x.names1.Nodup ∧
  x.names0.length = x.q.dims0.length ∧ x.names1.length = x.q.dims1.length

instance (x : NQ) : Decidable (NQInv x) := by
  unfold NQInv; infer_instance

/-! ## Extractors and concrete sample objects -/

def dNQ : NQ := ⟨unitQ, [], [], .oper⟩

def isOkE : Except Err NQ → Bool
  | .ok _ => true
  | .error _ => false

def theOkE : Except Err NQ → NQ
  | .ok x => x
  | .error _ => dNQ

def isOkA : AddRet → Bool
  | .okv _ => true
  | _ => false

def theOkA : AddRet → NQ
  | .okv x => x
  | _ => dNQ

def isOkQ : Except Err Qobj → Bool
  | .ok _ => true
  | .error _ => false

def theQ : Except Err Qobj → Qobj
  | .ok q => q
  | .error _ => unitQ

def isNqr : MulRet → Bool
  | .nqr _ => true
  | _ => false

def theNqr : MulRet → NQ
  | .nqr x => x
  | _ => dNQ

def PyVal.isNQb : PyVal → Bool
  | .nq _ => true
  | _ => false

def namesOfE (e : Except Err NQ) : List ModeName × List ModeName :=
  ((theOkE e).names0, (theOkE e).names1)

def cQ2 : Qobj := ⟨[2], [2], fun _ _ => 1, false⟩

def cA : NQ := ⟨cQ2, ["x"], ["x"], .oper⟩

def cB : NQ := ⟨cQ2, ["y"], ["y"], .state⟩

def cO : NQ := ⟨cQ2, ["x"], ["x"], .oper⟩

def cS : NQ := ⟨cQ2, ["x"], ["x"], .state⟩

def cX : NQ := ⟨⟨[2], [2], fun _ _ => 1, false⟩, ["a"], ["a"], .oper⟩

/-- Asymmetric names on a square object (the C2 failing input). -/
def cAsym : NQ := ⟨⟨[2], [2], fun _ _ => 1, false⟩, ["a"], ["b"], .oper⟩

/-- Non-square dims with distinct axis names. -/
def cRect : NQ := ⟨⟨[2], [3], fun _ _ => 1, false⟩, ["a"], ["b"], .oper⟩

/-! ## Constructor inversion lemmas -/

theorem finishKind_inv {q : Qobj} {l0 l1 : List ModeName} {kd : Option Kind} {x : NQ}
    (h : finishKind q l0 l1 kd = .ok x) :
    x.q = q ∧ x.names0 = l0 ∧ x.names1 = l1 := by
  rcases kd with _ | k
  · simp only [finishKind] at h
    split at h
    · simp only [Except.ok.injEq] at h
      subst h; exact ⟨rfl, rfl, rfl⟩
    · split at h
      · simp at h
      · simp only [Except.ok.injEq] at h
        subst h; exact ⟨rfl, rfl, rfl⟩
  · simp only [finishKind, Except.ok.injEq] at h
    subst h; exact ⟨rfl, rfl, rfl⟩

theorem finishKind_kind {q : Qobj} {l0 l1 : List ModeName} {k : Kind} {x : NQ}
    (h : finishKind q l0 l1 (some k) = .ok x) : x.kind = k := by
  simp only [finishKind, Except.ok.injEq] at h
  subst h; rfl

theorem mkNQ_pair_inv {q : Qobj} {l0 l1 : List ModeName} {kd : Option Kind} {x : NQ}
    (h : mkNQ q (.pairL l0 l1) kd = .ok x) :
    l0.Nodup ∧ l1.Nodup ∧ l0.length = q.dims0.length ∧ l1.length = q.dims1.length ∧
    x.q = q ∧ x.names0 = l0 ∧ x.names1 = l1 := by
  simp only [mkNQ] at h
  split at h
  · simp at h
  · split at h
    · simp at h
    · rename_i hdup hlen
      rw [not_or, not_not, not_not] at hdup
      rw [not_not] at hlen
      obtain ⟨hq, hn0, hn1⟩ := finishKind_inv h
      exact ⟨hdup.1, hdup.2, hlen.1, hlen.2, hq, hn0, hn1⟩

theorem mkNQ_flat_inv {q : Qobj} {l : List ModeName} {kd : Option Kind} {x : NQ}
    (h : mkNQ q (.flat l) kd = .ok x) :
    l.Nodup ∧ l.length = q.dims0.length ∧ l.length = q.dims1.length ∧
    x.q = q ∧ x.names0 = l ∧ x.names1 = l := by
  simp only [mkNQ] at h
  split at h
  · simp at h
  · split at h
    · simp at h
    · rename_i hdup hlen
      rw [not_not] at hdup
      rw [not_not] at hlen
      obtain ⟨hq, hn0, hn1⟩ := finishKind_inv h
      exact ⟨hdup, hlen.1, hlen.2, hq, hn0, hn1⟩

theorem mkNQ_sstr_inv {q : Qobj} {s : ModeName} {kd : Option Kind} {x : NQ}
    (h : mkNQ q (.sstr s) kd = .ok x) :
    q.dims0.length = 1 ∧ q.dims1.length = 1 ∧
    x.q = q ∧ x.names0 = [s] ∧ x.names1 = [s] := by
  simp only [mkNQ] at h
  split at h
  · simp at h
  · rename_i hsh
    rw [not_not] at hsh
    obtain ⟨hq, hn0, hn1⟩ := finishKind_inv h
    exact ⟨hsh.1, hsh.2, hq, hn0, hn1⟩

theorem mkNQ_inv {q : Qobj} {na : NamesArg} {kd : Option Kind} {x : NQ}
    (h : mkNQ q na kd = .ok x) : NQInv x := by
  rcases na with s | l | ⟨l0, l1⟩ | _
  · obtain ⟨h1, h2, hq, hn0, hn1⟩ := mkNQ_sstr_inv h
    refine ⟨hn0 ▸ List.nodup_singleton s, hn1 ▸ List.nodup_singleton s, ?_, ?_⟩
    · rw [hn0, hq]; exact h1.symm
    · rw [hn1, hq]; exact h2.symm
  · obtain ⟨h1, h2, h3, hq, hn0, hn1⟩ := mkNQ_flat_inv h
    exact ⟨hn0 ▸ h1, hn1 ▸ h1, by rw [hn0, hq]; exact h2, by rw [hn1, hq]; exact h3⟩
  · obtain ⟨h1, h2, h3, h4, hq, hn0, hn1⟩ := mkNQ_pair_inv h
    exact ⟨hn0 ▸ h1, hn1 ▸ h2, by rw [hn0, hq]; exact h3, by rw [hn1, hq]; exact h4⟩
  · exact Except.noConfusion h

theorem mkNQ_kind {q : Qobj} {na : NamesArg} {k : Kind} {x : NQ}
    (h : mkNQ q na (some k) = .ok x) : x.kind = k := by
  rcases na with s | l | ⟨l0, l1⟩ | _
  · simp only [mkNQ] at h
    split at h
    · simp at h
    · exact finishKind_kind h
  · simp only [mkNQ] at h
    split at h
    · simp at h
    · split at h
      · simp at h
      · exact finishKind_kind h
  · simp only [mkNQ] at h
    split at h
    · simp at h
    · split at h
      · simp at h
      · exact finishKind_kind h
  · exact Except.noConfusion h

/-- Monadic bind inversion for `Except`. -/
theorem bindE_ok {α β : Type} {m : Except Err α} {f : α → Except Err β} {b : β}
    (h : (m >>= f) = .ok b) : ∃ a, m = .ok a ∧ f a = .ok b := by
  cases m with
  | ok a => exact ⟨a, rfl, h⟩
  | error e => exact absurd h (by simp [Bind.bind, Except.bind])

/-! ## C1: overlap ordering of multiplication name resolution -/

/-- The claim's "left operand's non-excludable names": the left operand's
column names whose column dimension is not 1. -/
def leftNonExcl (a : NQ) : List ModeName :=
  a.names1.filter (fun nm => decide (¬ (a.dimOf nm).2 = some 1))

/-- The claim's "right operand's non-excludable names": the right operand's
row names whose row dimension is not 1. -/
def rightNonExcl (b : NQ) : List ModeName :=
  b.names0.filter (fun nm => decide (¬ (b.dimOf nm).1 = some 1))

/-- The C1 claim as stated: overlap-left-then-right when the right operand is
`state` and the left is `operator`, overlap-right-then-left otherwise,
duplicates removed keeping first occurrence. -/
def specOverlapC1 (a b : NQ) : List ModeName :=
  if b.kind = .state ∧ a.kind = .oper then pyDedup (leftNonExcl a ++ rightNonExcl b)
  else pyDedup (rightNonExcl b ++ leftNonExcl a)

/-- The C1 claim amended (the two orderings exchanged, matching the code):
right-then-left when the right operand is `state` and the left is `operator`,
left-then-right otherwise. -/
def specOverlapC1Amended (a b : NQ) : List ModeName :=
  if b.kind = .state ∧ a.kind = .oper then pyDedup (rightNonExcl b ++ leftNonExcl a)
  else pyDedup (leftNonExcl a ++ rightNonExcl b)

/-- C1 counterexample: for the oper left operand `cA` (mode x, dim 2) and the
state right operand `cB` (mode y, dim 2) — the kind combination the claim
singles out — the code's overlap is right-then-left `["y", "x"]`, not the
claimed left-then-right `["x", "y"]`. -/
theorem c1_counterexample :
    mulOverlap cA cB = ["y", "x"] ∧ specOverlapC1 cA cB = ["x", "y"] ∧
    mulOverlap cA cB ≠ specOverlapC1 cA cB := by decide

/-- C1 (amended): the overlap list of `_mul_find_required_names` is the right
operand's non-excludable row names followed by the left operand's
non-excludable column names when `right.kind == state and left.kind ==
oper`, and left-then-right in every other kind combination, duplicates
removed keeping first occurrence. -/
theorem c1_overlap_order (a b : NQ) : mulOverlap a b = specOverlapC1Amended a b := by
  simp only [mulOverlap, specOverlapC1Amended, leftNonExcl, rightNonExcl]

/-! ## C2: ptrace on non-square or name-asymmetric objects -/

/-- C2 evaluation: `ptrace` lines 224-227 build `ValueError` objects without
raising them, so on a square object with asymmetric names (`cAsym`, names
row a / column b) and on a non-square object (`cRect`, dims 2 by 3)
`ptrace(["a"])` proceeds and returns a Named Tensor instead of raising. -/
theorem c2_ptrace_no_raise :
    isOkE (cAsym.ptraceE (Sel.strs ["a"]) true) = true ∧
    namesOfE (cAsym.ptraceE (Sel.strs ["a"]) true) = (["a"], ["a"]) ∧
    isOkE (cRect.ptraceE (Sel.strs ["a"]) true) = true := by decide

/-! ## C8: rename error behaviour -/

/-- C8 counterexample: the old name "z" is absent from both axes of `cX`,
yet `rename("z", "z")` raises nothing (the `name == new_name` branch passes
silently before the lookup check). -/
theorem c8_counterexample :
    ("z" ∉ cX.names0 ++ cX.names1) ∧ (cX.rename "z" "z").1 = none := by decide

/-- C8 (amended): when the old and new names differ, renaming to a name
already present on either axis raises the collision error, and renaming an
old name absent from both axes (with an unused new name) raises the lookup
error; in both error cases the object is returned exactly as it was. -/
theorem c8_rename_errors (x : NQ) (old nw : ModeName) (hne : old ≠ nw) :
    (nw ∈ x.names0 ++ x.names1 →
      x.rename old nw =
        (some (Err.value "You cannot use a new_name which is already used."), x)) ∧
    (nw ∉ x.names0 ++ x.names1 → old ∉ x.names0 ++ x.names1 →
      x.rename old nw =
        (some (Err.value "The name you want to replace is not present in the NQobj."), x)) := by
  constructor
  · intro hmem
    unfold NQ.rename
    rw [if_neg hne, if_pos hmem]
  · intro hn ho
    unfold NQ.rename
    rw [if_neg hne, if_neg hn, if_pos ho]

/-- C8 witness: both error branches on the concrete object `cX` (mode a). -/
theorem c8_rename_errors_witness :
    (cX.rename "b" "a" =
      (some (Err.value "You cannot use a new_name which is already used."), cX)) ∧
    (cX.rename "z" "w" =
      (some (Err.value "The name you want to replace is not present in the NQobj."), cX)) :=
  ⟨(c8_rename_errors cX "b" "a" (by decide)).1 (by decide),
   (c8_rename_errors cX "z" "w" (by decide)).2 (by decide) (by decide)⟩

/-! ## C9: equality does not inspect the kind tag -/

/-- C9: `__eq__` returns backend equality AND name-list equality; the kind
tag is not consulted, so objects differing only in kind compare equal. -/
theorem c9_eq_ignores_kind (a b : NQ) (hq : qobjEqP a.q b.q)
    (h0 : a.names0 = b.names0) (h1 : a.names1 = b.names1) : nqEqP a b :=
  ⟨hq, h0, h1⟩

/-- C9 witness: `cO` (kind oper) and `cS` (kind state) share backend object
and names; they compare equal although their kinds differ. -/
theorem c9_eq_ignores_kind_witness :
    qobjEqP cO.q cS.q ∧ cO.names0 = cS.names0 ∧ cO.names1 = cS.names1 ∧
    cO.kind ≠ cS.kind ∧ nqEqP cO cS :=
  ⟨⟨rfl, rfl, fun _ _ _ _ => rfl⟩, rfl, rfl, by decide,
   c9_eq_ignores_kind cO cS ⟨rfl, rfl, fun _ _ _ _ => rfl⟩ rfl rfl⟩

/-! ## C10: addition with a non-NQobj right operand returns None -/

/-- C10: for any right operand that is not a Named Tensor (number, bare
backend object, or anything else), `__add__` returns Python `None`: it does
not raise, does not delegate, and does not return the `NotImplemented`
sentinel (which the source evaluates as a bare statement). -/
theorem c10_add_returns_none (x : NQ) (o : PyVal) (h : o.isNQb = false) :
    addFull x o = AddRet.pyNone ∧ (∀ e, addFull x o ≠ AddRet.err e) ∧
    addFull x o ≠ AddRet.notImpl ∧ (∀ y, addFull x o ≠ AddRet.okv y) := by
  have hmain : addFull x o = AddRet.pyNone := by
    cases o with
    | nq y => simp [PyVal.isNQb] at h
    | num k => rfl
    | qob q => rfl
    | otherV => rfl
  refine ⟨hmain, ?_, ?_, ?_⟩ <;> simp [hmain]

/-- C10 witness: adding the number 4 to a Named Tensor yields `None`. -/
theorem c10_add_returns_none_witness :
    (PyVal.num 4).isNQb = false ∧ addFull cO (PyVal.num 4) = AddRet.pyNone :=
  ⟨rfl, (c10_add_returns_none cO (PyVal.num 4) rfl).1⟩

/-! ## C5 and C6: multiplication result shape and kind -/

theorem isOkQ_exists {m : Except Err Qobj} (h : isOkQ m = true) : ∃ q, m = .ok q := by
  cases m with
  | ok q => exact ⟨q, rfl⟩
  | error e => simp [isOkQ] at h

/-- C5: when the backend product computed by the multiplication pipeline is a
1x1 object, `__mul__` returns it as a bare backend scalar (`qt.Qobj`, no
names, no kind) rather than as a Named Tensor. -/
theorem c5_scalar_contraction (a b : NQ)
    (h1 : isOkQ (mulBackend a b) = true)
    (h2 : (theQ (mulBackend a b)).dims0.prod = 1)
    (h3 : (theQ (mulBackend a b)).dims1.prod = 1) :
    mulPipeline a b = .ok (.scalar (theQ (mulBackend a b))) := by
  obtain ⟨q, hq⟩ := isOkQ_exists h1
  have hthe : theQ (mulBackend a b) = q := by rw [hq]; rfl
  rw [hthe] at h2 h3 ⊢
  rw [mulBackend] at hq
  obtain ⟨pr, hpr, hmul⟩ := bindE_ok hq
  rw [mulPipeline, hpr]
  show (qMul pr.1.q pr.2.q >>= _) = _
  rw [hmul]
  show (if q.dims0.prod = 1 ∧ q.dims1.prod = 1 then _ else _ : Except Err MulRet) = _
  rw [if_pos ⟨h2, h3⟩]
  rfl

def cBraN : NQ := ⟨braQ 2, ["A"], ["A"], .state⟩

def cKetN : NQ := ⟨ketQ 2, ["A"], ["A"], .state⟩

/-- C5 witness: a bra times a ket on the shared mode A contracts to a 1x1
backend scalar. -/
theorem c5_scalar_contraction_witness :
    isOkQ (mulBackend cBraN cKetN) = true ∧
    (theQ (mulBackend cBraN cKetN)).dims0.prod = 1 ∧
    (theQ (mulBackend cBraN cKetN)).dims1.prod = 1 ∧
    mulPipeline cBraN cKetN = .ok (.scalar (theQ (mulBackend cBraN cKetN))) :=
  ⟨by decide, by decide, by decide,
   c5_scalar_contraction cBraN cKetN (by decide) (by decide) (by decide)⟩

/-- The C6 claim's kind rule, written from the spec's words. -/
def specKindC6 : Kind → Kind → Kind
  | .oper, .oper => .oper
  | .state, .state => .oper
  | _, _ => .state

theorem mulPipeline_nqr_kind {a b : NQ} {x : NQ}
    (h : mulPipeline a b = .ok (.nqr x)) :
    x.kind = (if a.kind = .oper ∧ b.kind = .oper then Kind.oper
              else if a.kind = .state ∧ b.kind = .state then Kind.oper
              else Kind.state) := by
  rw [mulPipeline] at h
  obtain ⟨pr, hpr, h⟩ := bindE_ok h
  obtain ⟨qr, hqr, h⟩ := bindE_ok h
  split at h
  · simp only [pure, Except.pure, Except.ok.injEq] at h
    cases h
  · obtain ⟨nn, hnn, h⟩ := bindE_ok h
    obtain ⟨res, hres, h⟩ := bindE_ok h
    simp only [pure, Except.pure, Except.ok.injEq, MulRet.nqr.injEq] at h
    subst h
    exact mkNQ_kind hres

/-- C6: a non-scalar multiplication result has kind `oper` when both
operands are `oper`, `oper` when both are `state`, and `state` in every
other combination. -/
theorem c6_mul_kind (a b : NQ) (h : isNqr (mulFull a (PyVal.nq b)) = true) :
    (theNqr (mulFull a (PyVal.nq b))).kind = specKindC6 a.kind b.kind := by
  have hred : mulFull a (PyVal.nq b) =
      (match mulPipeline a b with
       | .ok r => r
       | .error e => MulRet.err e) := rfl
  rw [hred] at h ⊢
  cases hp : mulPipeline a b with
  | error e => rw [hp] at h; exact Bool.noConfusion h
  | ok r =>
      rw [hp] at h
      cases r with
      | nqr x =>
          show x.kind = _
          rw [mulPipeline_nqr_kind hp]
          cases a.kind <;> cases b.kind <;> rfl
      | scalar q => exact Bool.noConfusion h
      | qres q => exact Bool.noConfusion h
      | err e => exact Bool.noConfusion h
      | pyNone => exact Bool.noConfusion h

def cE1 : NQ := ⟨eyeQ 2, ["A"], ["A"], .oper⟩

def cE2 : NQ := ⟨eyeQ 2, ["A"], ["A"], .oper⟩

/-- C6 witness: identity times identity on the shared mode A is a Named
Tensor of kind oper. -/
theorem c6_mul_kind_witness :
    isNqr (mulFull cE1 (PyVal.nq cE2)) = true ∧
    (theNqr (mulFull cE1 (PyVal.nq cE2))).kind = specKindC6 cE1.kind cE2.kind :=
  ⟨by decide, c6_mul_kind cE1 cE2 (by decide)⟩

/-! ## C3: invariant preservation — per-operation inversion lemmas -/

theorem addPipeline_inv {a b : NQ} {x : NQ} (h : addPipeline a b = .ok x) :
    NQInv x := by
  rw [addPipeline] at h
  obtain ⟨ea, _, h⟩ := bindE_ok h
  obtain ⟨pa, _, h⟩ := bindE_ok h
  obtain ⟨eb, _, h⟩ := bindE_ok h
  obtain ⟨pb, _, h⟩ := bindE_ok h
  obtain ⟨s, _, h⟩ := bindE_ok h
  exact mkNQ_inv h

theorem addE_inv {a b : NQ} {x : NQ} (h : addE a b = .okv x) : NQInv x := by
  rw [addE] at h
  split at h
  · exact AddRet.noConfusion h
  · split at h
    · exact AddRet.noConfusion h
    · split at h
      · cases hp : addPipeline a b with
        | ok y => rw [hp] at h; cases h; exact addPipeline_inv hp
        | error e => rw [hp] at h; exact AddRet.noConfusion h
      · exact AddRet.noConfusion h

theorem mulPipeline_nqr_inv {a b : NQ} {x : NQ}
    (h : mulPipeline a b = .ok (.nqr x)) : NQInv x := by
  rw [mulPipeline] at h
  obtain ⟨pr, _, h⟩ := bindE_ok h
  obtain ⟨qr, _, h⟩ := bindE_ok h
  split at h
  · simp only [pure, Except.pure, Except.ok.injEq] at h
    cases h
  · obtain ⟨nn, _, h⟩ := bindE_ok h
    obtain ⟨res, hres, h⟩ := bindE_ok h
    simp only [pure, Except.pure, Except.ok.injEq, MulRet.nqr.injEq] at h
    subst h
    exact mkNQ_inv hres

theorem mulFull_nq_inv {a b : NQ} {x : NQ}
    (h : mulFull a (PyVal.nq b) = .nqr x) : NQInv x := by
  have hred : mulFull a (PyVal.nq b) =
      (match mulPipeline a b with
       | .ok r => r
       | .error e => MulRet.err e) := rfl
  rw [hred] at h
  cases hp : mulPipeline a b with
  | ok r =>
      rw [hp] at h
      cases h
      exact mulPipeline_nqr_inv hp
  | error e => rw [hp] at h; exact MulRet.noConfusion h

theorem mulFull_num_inv {a : NQ} {k : ℚ} {x : NQ}
    (h : mulFull a (PyVal.num k) = .nqr x) : NQInv x := by
  have hred : mulFull a (PyVal.num k) =
      (match mkNQ (smulQ k a.q) (NamesArg.pairL a.names0 a.names1) (some a.kind) with
       | .ok z => MulRet.nqr z
       | .error e => MulRet.err e) := rfl
  rw [hred] at h
  cases hp : mkNQ (smulQ k a.q) (NamesArg.pairL a.names0 a.names1) (some a.kind) with
  | ok z =>
      rw [hp] at h
      cases h
      exact mkNQ_inv hp
  | error e => rw [hp] at h; exact MulRet.noConfusion h

theorem pow_inv {x : NQ} {n : Nat} {y : NQ} (h : x.pow n = .ok y) : NQInv y := by
  rw [NQ.pow] at h
  obtain ⟨q, _, h⟩ := bindE_ok h
  exact mkNQ_inv h

theorem ptraceE_inv {x : NQ} {sel : Sel} {keep : Bool} {y : NQ}
    (h : x.ptraceE sel keep = .ok y) : NQInv y := by
  rw [NQ.ptraceE] at h
  obtain ⟨sel0, _, h⟩ := bindE_ok h
  exact mkNQ_inv h

theorem permPair_inv {x : NQ} {n0 n1 : List ModeName} {y : NQ}
    (h : permPair x n0 n1 = .ok y) : NQInv y := by
  rw [permPair] at h
  split at h
  · exact mkNQ_inv h
  · exact Except.noConfusion h

theorem permuteE_inv {x : NQ} {ord : POrder} {y : NQ}
    (h : permuteE x ord = .ok y) : NQInv y := by
  cases ord <;> exact permPair_inv h

theorem expandE_inv {x y : NQ} (hx : NQInv x) (h : x.expandE = .ok y) : NQInv y := by
  rw [NQ.expandE] at h
  split at h
  · cases h; exact hx
  · obtain ⟨z, _, h⟩ := bindE_ok h
    exact permuteE_inv h

theorem expmE_inv {x y : NQ} (h : x.expmE = .ok y) : NQInv y := by
  rw [NQ.expmE] at h
  split at h
  · exact mkNQ_inv h
  · obtain ⟨z, _, h⟩ := bindE_ok h
    split at h
    · exact mkNQ_inv h
    · exact Except.noConfusion h

theorem tensorN_inv {l : List NQ} {y : NQ} (h : tensorN l = .ok y) : NQInv y := by
  cases l with
  | nil => exact Except.noConfusion h
  | cons x xs =>
      rw [tensorN] at h
      split at h
      · exact mkNQ_inv h
      · exact Except.noConfusion h

def cY : NQ := ⟨⟨[2], [2], fun _ _ => 1, false⟩, ["b"], ["b"], .oper⟩

/-- C3: for every Named Tensor produced by any public operation
(construction, addition, multiplication, scalar multiplication, negation,
power, dag, trans, proj, unit, ptrace, permute, expand, expm, tensor, copy),
the names on each axis are pairwise distinct and length-matched to the
dimension vectors.  Every operation funnels its result through the
constructor, which re-validates; `expand` may also return its (valid)
receiver unchanged. -/
theorem c3_invariants (x y : NQ) (hx : NQInv x) :
    (∀ q na kd z, mkNQ q na kd = .ok z → NQInv z) ∧
    (∀ z, addE x y = .okv z → NQInv z) ∧
    (∀ z, mulFull x (PyVal.nq y) = .nqr z → NQInv z) ∧
    (∀ k z, mulFull x (PyVal.num k) = .nqr z → NQInv z) ∧
    (∀ z, x.neg = .ok z → NQInv z) ∧
    (∀ n z, x.pow n = .ok z → NQInv z) ∧
    (∀ z, x.dag = .ok z → NQInv z) ∧
    (∀ z, x.trans = .ok z → NQInv z) ∧
    (∀ z, x.proj = .ok z → NQInv z) ∧
    (∀ z, x.unit = .ok z → NQInv z) ∧
    (∀ sel keep z, x.ptraceE sel keep = .ok z → NQInv z) ∧
    (∀ ord z, permuteE x ord = .ok z → NQInv z) ∧
    (∀ z, x.expandE = .ok z → NQInv z) ∧
    (∀ z, x.expmE = .ok z → NQInv z) ∧
    (∀ l z, tensorN l = .ok z → NQInv z) ∧
    (∀ z, x.copy = .ok z → NQInv z) :=
  ⟨fun _ _ _ _ h => mkNQ_inv h,
   fun _ h => addE_inv h,
   fun _ h => mulFull_nq_inv h,
   fun _ _ h => mulFull_num_inv h,
   fun _ h => mkNQ_inv h,
   fun _ _ h => pow_inv h,
   fun _ h => mkNQ_inv h,
   fun _ h => mkNQ_inv h,
   fun _ h => mkNQ_inv h,
   fun _ h => mkNQ_inv h,
   fun _ _ _ h => ptraceE_inv h,
   fun _ _ h => permuteE_inv h,
   fun _ h => expandE_inv hx h,
   fun _ h => expmE_inv h,
   fun _ _ h => tensorN_inv h,
   fun _ h => mkNQ_inv h⟩

/-- C3 witness: two concrete valid operators; their addition succeeds and the
invariant lemma applies to it non-vacuously. -/
theorem c3_invariants_witness :
    NQInv cX ∧
    (∀ z, addE cX cY = AddRet.okv z → NQInv z) ∧
    isOkA (addE cX cY) = true :=
  ⟨by decide, (c3_invariants cX cY (by decide)).2.1, by decide⟩

/-! ## Index and permutation lemmas -/

theorem getD_indexOf_self (N : List ModeName) (nm : ModeName) (h : nm ∈ N) :
    N.getD (N.indexOf nm) "" = nm := by
  rw [List.getD_eq_getElem _ _ (List.indexOf_lt_length.mpr h)]
  exact List.getElem_indexOf _

theorem nodup_map_indexOf {N n : List ModeName} (hn : n.Nodup)
    (hsub : ∀ nm ∈ n, nm ∈ N) :
    (n.map (fun nm => N.indexOf nm)).Nodup := by
  refine List.Nodup.map_on ?_ hn
  intro a ha b hb hab
  exact (List.indexOf_inj (hsub a ha) (hsub b hb)).mp hab

/-- Transporting a digit vector through the index list `n.map (N.indexOf ·)`
reads, at each original position (name of `N`), the digit at that name's
position in the target order `n`; names absent from `n` read the default 0. -/
theorem unperm_map (N n : List ModeName) (v : List Nat)
    (hN : N.Nodup) (hn : n.Nodup) (hsub : ∀ nm ∈ n, nm ∈ N)
    (hv : v.length = n.length) :
    unperm (n.map (fun nm => N.indexOf nm)) N.length v =
      N.map (fun nm => if nm ∈ n then v.getD (n.indexOf nm) 0 else 0) := by
  apply List.ext_getElem
  · simp [unperm]
  intro j hj1 hj2
  have hjN : j < N.length := by simpa [unperm] using hj1
  simp only [unperm, List.getElem_map, List.getElem_range]
  by_cases hmem : N[j] ∈ n
  · rw [if_pos hmem]
    have hk : n.indexOf N[j] < n.length := List.indexOf_lt_length.mpr hmem
    have hkm : n.indexOf N[j] < (n.map (fun nm => N.indexOf nm)).length := by
      simpa using hk
    have hjk : (n.map (fun nm => N.indexOf nm))[n.indexOf N[j]] = j := by
      rw [List.getElem_map]
      rw [List.getElem_indexOf hk]
      exact List.indexOf_getElem hN j hjN
    have hnd : (n.map (fun nm => N.indexOf nm)).Nodup := nodup_map_indexOf hn hsub
    have hidx : (n.map (fun nm => N.indexOf nm)).indexOf j = n.indexOf N[j] := by
      have h5 := List.indexOf_getElem hnd (n.indexOf N[j]) hkm
      rw [hjk] at h5
      exact h5
    rw [hidx]
  · rw [if_neg hmem]
    have hnotin : j ∉ n.map (fun nm => N.indexOf nm) := by
      intro hc
      obtain ⟨nm, hnm, hje⟩ := List.mem_map.mp hc
      have h2 : nm = N[j] :=
        (getD_indexOf_self N nm (hsub nm hnm)).symm.trans
          (by rw [hje]; exact List.getD_eq_getElem _ _ hjN)
      exact hmem (h2 ▸ hnm)
    rw [List.indexOf_of_not_mem hnotin]
    rw [List.getD_eq_default]
    simp [hv]

/-- Reading a permuted lookup table back in original order reproduces the
original table. -/
theorem lookup_roundtrip {β : Type} (N p : List ModeName) (D : List β) (d : β)
    (hN : N.Nodup) (hp : ∀ nm ∈ N, nm ∈ p) (hD : D.length = N.length) :
    N.map (fun nm =>
      (p.map (fun nm2 => D.getD (N.indexOf nm2) d)).getD (p.indexOf nm) d) = D := by
  apply List.ext_getElem
  · simp [hD]
  intro j hj1 hj2
  have hjN : j < N.length := by simpa using hj1
  simp only [List.getElem_map]
  have hmem : N[j] ∈ p := hp _ (List.getElem_mem _)
  have hip : p.indexOf N[j] < p.length := List.indexOf_lt_length.mpr hmem
  rw [List.getD_eq_getElem _ _ (by simpa using hip), List.getElem_map,
      List.getElem_indexOf hip, List.indexOf_getElem hN j hjN]
  exact List.getD_eq_getElem _ _ hj2

/-- Round trip of the digit transport: permuting by `p` and back by the
original names is the identity on digit vectors of the right length. -/
theorem unperm_roundtrip (N p : List ModeName) (v : List Nat)
    (hN : N.Nodup) (hp : p.Perm N) (hv : v.length = N.length) :
    unperm (p.map (fun nm => N.indexOf nm)) N.length
      (unperm (N.map (fun nm => p.indexOf nm)) p.length v) = v := by
  have hpn : p.Nodup := hp.nodup_iff.mpr hN
  have hsubNp : ∀ nm ∈ N, nm ∈ p := fun nm h => hp.mem_iff.mpr h
  have hsubpN : ∀ nm ∈ p, nm ∈ N := fun nm h => hp.mem_iff.mp h
  rw [unperm_map p N v hpn hN hsubNp hv]
  have hall : p.map (fun nm => if nm ∈ N then v.getD (N.indexOf nm) 0 else 0) =
      p.map (fun nm => v.getD (N.indexOf nm) 0) :=
    List.map_congr_left (fun nm hm => if_pos (hsubpN nm hm))
  rw [hall]
  rw [unperm_map N p _ hN hpn hsubpN (by simp)]
  have hall2 : N.map (fun nm =>
      if nm ∈ p then (p.map (fun nm2 => v.getD (N.indexOf nm2) 0)).getD (p.indexOf nm) 0
      else 0) =
      N.map (fun nm =>
        (p.map (fun nm2 => v.getD (N.indexOf nm2) 0)).getD (p.indexOf nm) 0) :=
    List.map_congr_left (fun nm hm => if_pos (hsubNp nm hm))
  rw [hall2]
  exact lookup_roundtrip N p v 0 hN hsubNp hv

/-- `permute` succeeds on any target pair of duplicate-free name lists drawn
from the object's axes, and the result is the permuted backend object carrying
exactly the target names. -/
theorem permPair_ok (x : NQ) (n0 n1 : List ModeName)
    (hsub0 : ∀ nm ∈ n0, nm ∈ x.names0) (hsub1 : ∀ nm ∈ n1, nm ∈ x.names1)
    (hnd0 : n0.Nodup) (hnd1 : n1.Nodup) :
    permPair x n0 n1 = .ok
      ⟨permB x.q (n0.map (fun nm => x.names0.indexOf nm))
               (n1.map (fun nm => x.names1.indexOf nm)), n0, n1, x.kind⟩ := by
  rw [permPair, if_pos ⟨hsub0, hsub1⟩]
  have hm0 : (n0.map (fun nm => x.names0.indexOf nm)).map
      (fun i => x.names0.getD i "") = n0 := by
    rw [List.map_map]
    calc n0.map ((fun i => x.names0.getD i "") ∘ fun nm => x.names0.indexOf nm)
        = n0.map id :=
          List.map_congr_left (fun nm hm => getD_indexOf_self _ _ (hsub0 nm hm))
      _ = n0 := List.map_id n0
  have hm1 : (n1.map (fun nm => x.names1.indexOf nm)).map
      (fun i => x.names1.getD i "") = n1 := by
    rw [List.map_map]
    calc n1.map ((fun i => x.names1.getD i "") ∘ fun nm => x.names1.indexOf nm)
        = n1.map id :=
          List.map_congr_left (fun nm hm => getD_indexOf_self _ _ (hsub1 nm hm))
      _ = n1 := List.map_id n1
  show mkNQ (permB x.q (n0.map (fun nm => x.names0.indexOf nm))
               (n1.map (fun nm => x.names1.indexOf nm)))
      (NamesArg.pairL
        ((n0.map (fun nm => x.names0.indexOf nm)).map (fun i => x.names0.getD i ""))
        ((n1.map (fun nm => x.names1.indexOf nm)).map (fun i => x.names1.getD i "")))
      (some x.kind) = _
  rw [hm0, hm1]
  simp only [mkNQ]
  rw [if_neg (by simp [hnd0, hnd1]), if_neg (by simp [permB])]
  rfl

/-- C7: permuting a Named Tensor to a valid by-name permutation `p` of its
axis names and then permuting back to the original name order (the inverse
permutation, expressed by name) returns the original object: same backend
dimension vectors and entries, same name lists, same kind. -/
theorem c7_permute_roundtrip (x : NQ) (p0 p1 : List ModeName)
    (h0 : x.names0.Nodup) (h1 : x.names1.Nodup)
    (hl0 : x.names0.length = x.q.dims0.length)
    (hl1 : x.names1.length = x.q.dims1.length)
    (hp0 : p0.Perm x.names0) (hp1 : p1.Perm x.names1) :
    ∃ y z, permPair x p0 p1 = .ok y ∧ permPair y x.names0 x.names1 = .ok z ∧
      z.names0 = x.names0 ∧ z.names1 = x.names1 ∧ z.kind = x.kind ∧
      z.q.dims0 = x.q.dims0 ∧ z.q.dims1 = x.q.dims1 ∧
      ∀ r c, r.length = x.q.dims0.length → c.length = x.q.dims1.length →
        z.q.entry r c = x.q.entry r c := by
  have hnd0 : p0.Nodup := hp0.nodup_iff.mpr h0
  have hnd1 : p1.Nodup := hp1.nodup_iff.mpr h1
  have hsub0 : ∀ nm ∈ p0, nm ∈ x.names0 := fun nm h => hp0.subset h
  have hsub1 : ∀ nm ∈ p1, nm ∈ x.names1 := fun nm h => hp1.subset h
  have hy := permPair_ok x p0 p1 hsub0 hsub1 hnd0 hnd1
  have hzsub0 : ∀ nm ∈ x.names0, nm ∈ p0 := fun nm h => hp0.mem_iff.mpr h
  have hzsub1 : ∀ nm ∈ x.names1, nm ∈ p1 := fun nm h => hp1.mem_iff.mpr h
  have hz := permPair_ok
     ⟨permB x.q (p0.map (fun nm => x.names0.indexOf nm))
              (p1.map (fun nm => x.names1.indexOf nm)), p0, p1, x.kind⟩
     x.names0 x.names1 hzsub0 hzsub1 h0 h1
  refine ⟨_, _, hy, hz, rfl, rfl, rfl, ?_, ?_, ?_⟩
  · simp only [permB, List.map_map]
    exact lookup_roundtrip x.names0 p0 x.q.dims0 0 h0 hzsub0 hl0.symm
  · simp only [permB, List.map_map]
    exact lookup_roundtrip x.names1 p1 x.q.dims1 0 h1 hzsub1 hl1.symm
  · intro r c hr hc
    show x.q.entry
        (unperm (p0.map (fun nm => x.names0.indexOf nm)) x.q.dims0.length
          (unperm (x.names0.map (fun nm => p0.indexOf nm))
            ((p0.map (fun nm => x.names0.indexOf nm)).map
              (fun i => x.q.dims0.getD i 0)).length r))
        (unperm (p1.map (fun nm => x.names1.indexOf nm)) x.q.dims1.length
          (unperm (x.names1.map (fun nm => p1.indexOf nm))
            ((p1.map (fun nm => x.names1.indexOf nm)).map
              (fun i => x.q.dims1.getD i 0)).length c)) = x.q.entry r c
    simp only [List.length_map]
    rw [← hl0, ← hl1]
    rw [unperm_roundtrip x.names0 p0 r h0 hp0 (by rw [hr, hl0]),
        unperm_roundtrip x.names1 p1 c h1 hp1 (by rw [hc, hl1])]

def cP : NQ := ⟨⟨[2, 3], [2, 3], fun _ _ => 1, false⟩, ["a", "b"], ["a", "b"], .oper⟩

/-- C7 witness: the two-mode operator `cP` (modes a, b of dims 2, 3),
permuted to the order b, a and back. -/
theorem c7_permute_roundtrip_witness :
    cP.names0.Nodup ∧ cP.names1.Nodup ∧
    cP.names0.length = cP.q.dims0.length ∧ cP.names1.length = cP.q.dims1.length ∧
    (["b", "a"].Perm cP.names0) ∧ (["b", "a"].Perm cP.names1) ∧
    (∃ y z, permPair cP ["b", "a"] ["b", "a"] = .ok y ∧
      permPair y cP.names0 cP.names1 = .ok z ∧
      z.names0 = cP.names0 ∧ z.names1 = cP.names1 ∧ z.kind = cP.kind ∧
      z.q.dims0 = cP.q.dims0 ∧ z.q.dims1 = cP.q.dims1 ∧
      ∀ r c, r.length = cP.q.dims0.length → c.length = cP.q.dims1.length →
        z.q.entry r c = cP.q.entry r c) :=
  ⟨by decide, by decide, by decide, by decide, by decide, by decide,
   c7_permute_roundtrip cP ["b", "a"] ["b", "a"] (by decide) (by decide) (by decide)
     (by decide) (by decide) (by decide)⟩

/-! ## C4: helper lemmas (de-duplication, lookup, inversions) -/

theorem mem_pyDedup {a : ModeName} {l : List ModeName} : a ∈ pyDedup l ↔ a ∈ l := by
  induction l with
  | nil => simp [pyDedup]
  | cons x xs ih =>
      simp only [pyDedup, List.mem_cons, List.mem_filter]
      constructor
      · rintro (rfl | ⟨h1, _⟩)
        · exact .inl rfl
        · exact .inr (ih.mp h1)
      · rintro (rfl | h)
        · exact .inl rfl
        · by_cases hax : a = x
          · exact .inl hax
          · exact .inr ⟨ih.mpr h, by simpa using hax⟩

theorem pyDedup_nodup (l : List ModeName) : (pyDedup l).Nodup := by
  induction l with
  | nil => simp [pyDedup]
  | cons x xs ih =>
      simp only [pyDedup, List.nodup_cons]
      refine ⟨fun hc => ?_, List.Nodup.filter _ ih⟩
      have := (List.mem_filter.mp hc).2
      simp at this

theorem getD_map_indexOf {β : Type} (n : List ModeName) (F : ModeName → β) (d : β)
    (nm : ModeName) (h : nm ∈ n) : (n.map F).getD (n.indexOf nm) d = F nm := by
  rw [List.getD_eq_getElem _ _ (by simpa using List.indexOf_lt_length.mpr h),
      List.getElem_map]
  exact congrArg F (List.getElem_indexOf _)

theorem qAdd_ok_inv {q1 q2 s : Qobj} (h : qAdd q1 q2 = .ok s) :
    q1.dims0 = q2.dims0 ∧ q1.dims1 = q2.dims1 ∧ s.dims0 = q1.dims0 ∧
    s.dims1 = q1.dims1 ∧ ∀ r c, s.entry r c = q1.entry r c + q2.entry r c := by
  rw [qAdd] at h
  split at h
  · rename_i hc
    simp only [Except.ok.injEq] at h
    subst h
    exact ⟨hc.1, hc.2, rfl, rfl, fun _ _ => rfl⟩
  · exact Except.noConfusion h

theorem tensorN_ok_inv {x : NQ} {xs : List NQ} {E : NQ}
    (h : tensorN (x :: xs) = .ok E) :
    E.q = qtensorList ((x :: xs).map (fun y => y.q)) ∧
    E.names0 = ((x :: xs).map (fun y => y.names0)).flatten ∧
    E.names1 = ((x :: xs).map (fun y => y.names1)).flatten ∧
    E.names0.Nodup ∧ E.names1.Nodup ∧
    E.names0.length = E.q.dims0.length ∧ E.names1.length = E.q.dims1.length ∧
    E.kind = x.kind := by
  have hinv := tensorN_inv h
  rw [tensorN] at h
  split at h
  · obtain ⟨_, _, _, _, hq, h0, h1⟩ := mkNQ_pair_inv h
    exact ⟨hq, h0, h1, hinv.1, hinv.2.1, hinv.2.2.1, hinv.2.2.2, mkNQ_kind h⟩
  · exact Except.noConfusion h

theorem mapped_names_eq {N n : List ModeName} (hsub : ∀ nm ∈ n, nm ∈ N) :
    (n.map (fun nm => N.indexOf nm)).map (fun i => N.getD i "") = n := by
  rw [List.map_map]
  calc n.map ((fun i => N.getD i "") ∘ fun nm => N.indexOf nm)
      = n.map id := List.map_congr_left (fun nm hm => getD_indexOf_self _ _ (hsub nm hm))
    _ = n := List.map_id n

theorem permPair_ok_inv {x : NQ} {n0 n1 : List ModeName} {y : NQ}
    (h : permPair x n0 n1 = .ok y) :
    (∀ nm ∈ n0, nm ∈ x.names0) ∧ (∀ nm ∈ n1, nm ∈ x.names1) ∧
    y.q = permB x.q (n0.map (fun nm => x.names0.indexOf nm))
                  (n1.map (fun nm => x.names1.indexOf nm)) ∧
    y.names0 = n0 ∧ y.names1 = n1 ∧ y.kind = x.kind := by
  rw [permPair] at h
  split at h
  · rename_i hg
    obtain ⟨_, _, _, _, hq, h0, h1⟩ := mkNQ_pair_inv h
    exact ⟨hg.1, hg.2, hq, by rw [h0, mapped_names_eq hg.1],
           by rw [h1, mapped_names_eq hg.2], mkNQ_kind h⟩
  · exact Except.noConfusion h

theorem mapM_ok_map {α : Type} {f : α → Except Err NQ} :
    ∀ {l : List α} {o : List NQ}, l.mapM f = .ok o →
      o = l.map (fun p => theOkE (f p)) := by
  intro l
  induction l with
  | nil => intro o h; simp only [List.mapM_nil, pure, Except.pure, Except.ok.injEq] at h; simp [← h]
  | cons p ps ih =>
      intro o h
      rw [List.mapM_cons] at h
      obtain ⟨y, hy, h⟩ := bindE_ok h
      obtain ⟨ys, hys, h⟩ := bindE_ok h
      simp only [pure, Except.pure, Except.ok.injEq] at h
      subst h
      simp only [List.map_cons]
      rw [← ih hys, hy]
      rfl

theorem mapM_ok_mem {α : Type} {f : α → Except Err NQ} :
    ∀ {l : List α} {o : List NQ}, l.mapM f = .ok o →
      ∀ y ∈ o, ∃ p ∈ l, f p = .ok y := by
  intro l
  induction l with
  | nil =>
      intro o h y hy
      simp only [List.mapM_nil, pure, Except.pure, Except.ok.injEq] at h
      rw [← h] at hy
      exact absurd hy (List.not_mem_nil y)
  | cons p ps ih =>
      intro o h y hy
      rw [List.mapM_cons] at h
      obtain ⟨z, hz, h⟩ := bindE_ok h
      obtain ⟨zs, hzs, h⟩ := bindE_ok h
      simp only [pure, Except.pure, Except.ok.injEq] at h
      subst h
      rcases List.mem_cons.mp hy with rfl | hmem
      · exact ⟨p, List.mem_cons_self p ps, hz⟩
      · obtain ⟨p2, hp2, hf⟩ := ih hzs y hmem
        exact ⟨p2, List.mem_cons_of_mem p hp2, hf⟩

theorem fillerMode_inv {nm : ModeName} {dims : Option Nat × Option Nat} {kd : Kind}
    {m : NQ} (h : fillerMode nm dims kd = .ok m) : NQInv m := by
  rcases kd with _ | _ <;> rw [fillerMode] at h
  · split at h
    · rcases dims with ⟨_ | d0, d1⟩
      · exact Except.noConfusion h
      · exact mkNQ_inv h
    · exact Except.noConfusion h
  · rcases dims with ⟨_ | d0, _ | d1⟩
    · exact Except.noConfusion h
    · exact mkNQ_inv h
    · exact mkNQ_inv h
    · exact mkNQ_inv h

theorem qtensorList_dims0 (L : List NQ) :
    (qtensorList (L.map (fun X => X.q))).dims0 =
      (L.map (fun X => X.q.dims0)).flatten := by
  induction L with
  | nil => rfl
  | cons X L ih => simp only [List.map_cons, qtensorList, tensorQ, List.flatten_cons, ih]

theorem qtensorList_dims1 (L : List NQ) :
    (qtensorList (L.map (fun X => X.q))).dims1 =
      (L.map (fun X => X.q.dims1)).flatten := by
  induction L with
  | nil => rfl
  | cons X L ih => simp only [List.map_cons, qtensorList, tensorQ, List.flatten_cons, ih]

/-- Entries of a Kronecker chain at digit vectors assembled name-wise from
assignment functions split into the per-factor entries. -/
theorem qtensorList_entry (L : List NQ)
    (hL : ∀ X ∈ L, X.names0.length = X.q.dims0.length ∧
                   X.names1.length = X.q.dims1.length)
    (f g : ModeName → Nat) :
    (qtensorList (L.map (fun X => X.q))).entry
        (((L.map (fun X => X.names0)).flatten).map f)
        (((L.map (fun X => X.names1)).flatten).map g) =
      (L.map (fun X => X.q.entry (X.names0.map f) (X.names1.map g))).prod := by
  induction L with
  | nil => simp [qtensorList, unitQ]
  | cons X L ih =>
      have hX := hL X (List.mem_cons_self X L)
      have hL' : ∀ Y ∈ L, Y.names0.length = Y.q.dims0.length ∧
          Y.names1.length = Y.q.dims1.length :=
        fun Y hY => hL Y (List.mem_cons_of_mem X hY)
      simp only [List.map_cons, List.flatten_cons, List.prod_cons, List.map_append]
      show (tensorQ X.q (qtensorList (L.map (fun X => X.q)))).entry
          (X.names0.map f ++ ((L.map (fun X => X.names0)).flatten).map f)
          (X.names1.map g ++ ((L.map (fun X => X.names1)).flatten).map g) = _
      simp only [tensorQ]
      rw [List.take_left' (by simp [hX.1]), List.drop_left' (by simp [hX.1]),
          List.take_left' (by simp [hX.2]), List.drop_left' (by simp [hX.2])]
      rw [ih hL']

/-- First-match dimension lookup over a component list (axis chosen by the
selector functions). -/
def dimLook (sel : NQ → List ModeName) (dimsel : NQ → List Nat) :
    List NQ → ModeName → Nat
  | [], _ => 0
  | X :: L, nm =>
      if nm ∈ sel X then (dimsel X).getD ((sel X).indexOf nm) 0
      else dimLook sel dimsel L nm

theorem flatten_lookup (sel : NQ → List ModeName) (dimsel : NQ → List Nat)
    (L : List NQ) (hlen : ∀ X ∈ L, (sel X).length = (dimsel X).length)
    (nm : ModeName) :
    ((L.map dimsel).flatten).getD (((L.map sel).flatten).indexOf nm) 0 =
      dimLook sel dimsel L nm := by
  induction L with
  | nil => simp [dimLook]
  | cons X L ih =>
      have hX := hlen X (List.mem_cons_self X L)
      have hL' : ∀ Y ∈ L, (sel Y).length = (dimsel Y).length :=
        fun Y hY => hlen Y (List.mem_cons_of_mem X hY)
      simp only [List.map_cons, List.flatten_cons, dimLook]
      by_cases hm : nm ∈ sel X
      · rw [if_pos hm, List.indexOf_append_of_mem hm,
            List.getD_append _ _ _ _ (hX ▸ List.indexOf_lt_length.mpr hm)]
      · rw [if_neg hm, List.indexOf_append_of_not_mem hm,
            List.getD_append_right _ _ _ _ (by rw [← hX]; exact Nat.le_add_right _ _)]
        rw [← hX, Nat.add_sub_cancel_left]
        exact ih hL'

theorem perm_flatten {α : Type} {l1 l2 : List (List α)} (h : l1.Perm l2) :
    l1.flatten.Perm l2.flatten := by
  induction h with
  | nil => rfl
  | cons X h ih => simpa using ih.append_left X
  | swap X Y L =>
      simp only [List.flatten_cons, ← List.append_assoc]
      exact List.perm_append_comm.append_right _
  | trans _ _ ih1 ih2 => exact ih1.trans ih2

theorem dimLook_perm (sel : NQ → List ModeName) (dimsel : NQ → List Nat)
    {L1 L2 : List NQ} (hp : L1.Perm L2) :
    ((L1.map sel).flatten).Nodup →
      ∀ nm, dimLook sel dimsel L1 nm = dimLook sel dimsel L2 nm := by
  induction hp with
  | nil => intro _ _; rfl
  | cons X hp ih =>
      intro hdisj nm
      simp only [dimLook]
      by_cases hm : nm ∈ sel X
      · rw [if_pos hm, if_pos hm]
      · rw [if_neg hm, if_neg hm]
        simp only [List.map_cons, List.flatten_cons] at hdisj
        exact ih hdisj.of_append_right nm
  | swap X Y L =>
      intro hdisj nm
      simp only [dimLook]
      by_cases hmY : nm ∈ sel Y <;> by_cases hmX : nm ∈ sel X
      · exfalso
        simp only [List.map_cons, List.flatten_cons] at hdisj
        have hd := List.disjoint_of_nodup_append hdisj
        exact hd hmY (List.mem_append.mpr (.inl hmX))
      · rw [if_pos hmY, if_neg hmX, if_pos hmY]
      · rw [if_neg hmY, if_pos hmX, if_pos hmX]
      · rw [if_neg hmY, if_neg hmX, if_neg hmX, if_neg hmY]
  | trans h12 h23 ih12 ih23 =>
      intro hdisj nm
      rw [ih12 hdisj nm]
      exact ih23 ((perm_flatten (h12.map sel)).nodup_iff.mp hdisj) nm

/-- Digit assignment read off a target name order: the digit of `nm` in the
vector `v` laid out along `n` (0 for names outside `n`). -/
def dig (n : List ModeName) (v : List Nat) (nm : ModeName) : Nat :=
  if nm ∈ n then v.getD (n.indexOf nm) 0 else 0

theorem unperm_map_dig (N n : List ModeName) (v : List Nat)
    (hN : N.Nodup) (hn : n.Nodup) (hsub : ∀ nm ∈ n, nm ∈ N)
    (hv : v.length = n.length) :
    unperm (n.map (fun nm => N.indexOf nm)) N.length v = N.map (dig n v) :=
  unperm_map N n v hN hn hsub hv

theorem dig_transport {nA nB : List ModeName} {r : List Nat}
    (hAnd : nA.Nodup) (hBnd : nB.Nodup)
    (hmem : ∀ nm, nm ∈ nA ↔ nm ∈ nB)
    (hr : r.length = nA.length) (nm : ModeName) :
    dig nB (unperm (nA.map (fun nm2 => nB.indexOf nm2)) nB.length r) nm =
      dig nA r nm := by
  have hsub : ∀ nm2 ∈ nA, nm2 ∈ nB := fun nm2 h => (hmem nm2).mp h
  rw [unperm_map_dig nB nA r hBnd hAnd hsub hr]
  by_cases hm : nm ∈ nB
  · rw [dig, if_pos hm, getD_map_indexOf nB _ 0 nm hm]
  · rw [dig, if_neg hm, dig, if_neg (fun hc => hm ((hmem nm).mp hc))]

/-- The expand-then-permute stage of the addition pipeline, characterized:
the aligned operand carries the target names, its dimension vectors read the
per-name dimensions off the component list, and its entries factor into the
per-component entries evaluated at name-indexed digits. -/
theorem aligned_entry {x : NQ} {modes : List NQ} {n0 n1 : List ModeName} {E P : NQ}
    (hx : NQInv x)
    (hmodesInv : ∀ m ∈ modes, NQInv m)
    (hE : tensorN (x :: modes) = .ok E)
    (hP : permPair E n0 n1 = .ok P)
    (hn0 : n0.Nodup) (hn1 : n1.Nodup) :
    P.names0 = n0 ∧ P.names1 = n1 ∧
    P.q.dims0 = n0.map (dimLook (fun X => X.names0) (fun X => X.q.dims0) (x :: modes)) ∧
    P.q.dims1 = n1.map (dimLook (fun X => X.names1) (fun X => X.q.dims1) (x :: modes)) ∧
    ∀ r c, r.length = n0.length → c.length = n1.length →
      P.q.entry r c =
        ((x :: modes).map (fun X =>
          X.q.entry (X.names0.map (dig n0 r)) (X.names1.map (dig n1 c)))).prod := by
  obtain ⟨hEq, hEn0, hEn1, hEnd0, hEnd1, hElen0, hElen1, hEkind⟩ := tensorN_ok_inv hE
  obtain ⟨hsub0, hsub1, hPq, hPn0, hPn1, hPkind⟩ := permPair_ok_inv hP
  have hcomp : ∀ X ∈ x :: modes, X.names0.length = X.q.dims0.length ∧
      X.names1.length = X.q.dims1.length := by
    intro X hX
    rcases List.mem_cons.mp hX with rfl | hm
    · exact ⟨hx.2.2.1, hx.2.2.2⟩
    · have := hmodesInv X hm
      exact ⟨this.2.2.1, this.2.2.2⟩
  refine ⟨hPn0, hPn1, ?_, ?_, ?_⟩
  · rw [hPq]
    show (n0.map (fun nm => E.names0.indexOf nm)).map (fun i => E.q.dims0.getD i 0) = _
    rw [List.map_map]
    refine List.map_congr_left (fun nm hm => ?_)
    show E.q.dims0.getD (E.names0.indexOf nm) 0 = _
    rw [hEn0, hEq, qtensorList_dims0]
    exact flatten_lookup _ _ _ (fun X hX => (hcomp X hX).1) nm
  · rw [hPq]
    show (n1.map (fun nm => E.names1.indexOf nm)).map (fun i => E.q.dims1.getD i 0) = _
    rw [List.map_map]
    refine List.map_congr_left (fun nm hm => ?_)
    show E.q.dims1.getD (E.names1.indexOf nm) 0 = _
    rw [hEn1, hEq, qtensorList_dims1]
    exact flatten_lookup _ _ _ (fun X hX => (hcomp X hX).2) nm
  · intro r c hr hc
    rw [hPq]
    show E.q.entry (unperm (n0.map (fun nm => E.names0.indexOf nm)) E.q.dims0.length r)
        (unperm (n1.map (fun nm => E.names1.indexOf nm)) E.q.dims1.length c) = _
    rw [← hElen0, ← hElen1]
    rw [unperm_map_dig E.names0 n0 r hEnd0 hn0 hsub0 hr,
        unperm_map_dig E.names1 n1 c hEnd1 hn1 hsub1 hc]
    rw [hEq, hEn0, hEn1]
    exact qtensorList_entry (x :: modes) hcomp (dig n0 r) (dig n1 c)

theorem addE_okv_inv {a b : NQ} {s : NQ} (h : addE a b = .okv s) :
    addPipeline a b = .ok s := by
  rw [addE] at h
  split at h
  · exact AddRet.noConfusion h
  · split at h
    · exact AddRet.noConfusion h
    · split at h
      · cases hp : addPipeline a b with
        | ok y => rw [hp] at h; cases h; rfl
        | error e => rw [hp] at h; exact AddRet.noConfusion h
      · exact AddRet.noConfusion h

theorem addPipeline_ok_inv {a b : NQ} {s : NQ} (h : addPipeline a b = .ok s) :
    ∃ modesA Ea Pa modesB Eb Pb Sq,
      (findMissingDict (findMissing a.names0 a.names1 (addReq a b).1 (addReq a b).2)
          b false).mapM (fun p => fillerMode p.1 p.2 a.kind) = .ok modesA ∧
      tensorN (a :: modesA) = .ok Ea ∧
      permPair Ea (addReq a b).1 (addReq a b).2 = .ok Pa ∧
      (findMissingDict (findMissing b.names0 b.names1 (addReq a b).1 (addReq a b).2)
          a false).mapM (fun p => fillerMode p.1 p.2 b.kind) = .ok modesB ∧
      tensorN (b :: modesB) = .ok Eb ∧
      permPair Eb (addReq a b).1 (addReq a b).2 = .ok Pb ∧
      qAdd Pa.q Pb.q = .ok Sq ∧
      mkNQ Sq (.pairL (addReq a b).1 (addReq a b).2) (some a.kind) = .ok s := by
  rw [addPipeline] at h
  obtain ⟨Ea, hEa, h⟩ := bindE_ok h
  obtain ⟨Pa, hPa, h⟩ := bindE_ok h
  obtain ⟨Eb, hEb, h⟩ := bindE_ok h
  obtain ⟨Pb, hPb, h⟩ := bindE_ok h
  obtain ⟨Sq, hSq, h⟩ := bindE_ok h
  rw [addingMissingModes] at hEa hEb
  obtain ⟨modesA, hmA, htA⟩ := bindE_ok hEa
  obtain ⟨modesB, hmB, htB⟩ := bindE_ok hEb
  exact ⟨modesA, Ea, Pa, modesB, Eb, Pb, Sq, hmA, htA, hPa, hmB, htB, hPb, hSq, h⟩

theorem findMissingDict_perm (o : NQ) (m m' : List ModeName × List ModeName)
    (h0 : ∀ nm, nm ∈ m.1 ↔ nm ∈ m'.1) (h1 : ∀ nm, nm ∈ m.2 ↔ nm ∈ m'.2) :
    (findMissingDict m o false).Perm (findMissingDict m' o false) := by
  have hkeys : (pyDedup (m.1 ++ m.2)).Perm (pyDedup (m'.1 ++ m'.2)) :=
    (List.perm_ext_iff_of_nodup (pyDedup_nodup _) (pyDedup_nodup _)).mpr
      (fun nm => by simp [mem_pyDedup, List.mem_append, h0 nm, h1 nm])
  have hfun : ∀ nm : ModeName,
      (nm, (if nm ∈ m.1 then (o.dimOf nm).1 else none,
            if nm ∈ m.2 then (o.dimOf nm).2 else none)) =
      (nm, (if nm ∈ m'.1 then (o.dimOf nm).1 else none,
            if nm ∈ m'.2 then (o.dimOf nm).2 else none)) := by
    intro nm
    rw [if_congr (h0 nm) rfl rfl, if_congr (h1 nm) rfl rfl]
  have heq : findMissingDict m o false =
      (pyDedup (m.1 ++ m.2)).map (fun nm =>
        (nm, (if nm ∈ m'.1 then (o.dimOf nm).1 else none,
              if nm ∈ m'.2 then (o.dimOf nm).2 else none))) :=
    List.map_congr_left (fun nm _ => hfun nm)
  rw [heq]
  exact hkeys.map _

/-- C4: for same-type, same-kind Named Tensors whose additions succeed,
`a + b` and `(b + a).permute(required name order of a + b)` agree in names,
dimension vectors and entries. -/
theorem c4_add_commutes (a b : NQ) (ha : NQInv a) (hb : NQInv b)
    (h1 : isOkA (addE a b) = true) (h2 : isOkA (addE b a) = true) :
    ∃ u, permPair (theOkA (addE b a)) (addReq a b).1 (addReq a b).2 = .ok u ∧
      u.names0 = (theOkA (addE a b)).names0 ∧
      u.names1 = (theOkA (addE a b)).names1 ∧
      u.q.dims0 = (theOkA (addE a b)).q.dims0 ∧
      u.q.dims1 = (theOkA (addE a b)).q.dims1 ∧
      ∀ r c, r.length = (theOkA (addE a b)).q.dims0.length →
             c.length = (theOkA (addE a b)).q.dims1.length →
        u.q.entry r c = (theOkA (addE a b)).q.entry r c := by
  obtain ⟨s, hs⟩ : ∃ s, addE a b = .okv s := by
    cases hv : addE a b with
    | okv z => exact ⟨z, rfl⟩
    | err e => rw [hv] at h1; exact Bool.noConfusion h1
    | notImpl => rw [hv] at h1; exact Bool.noConfusion h1
    | pyNone => rw [hv] at h1; exact Bool.noConfusion h1
  obtain ⟨t, ht⟩ : ∃ t, addE b a = .okv t := by
    cases hv : addE b a with
    | okv z => exact ⟨z, rfl⟩
    | err e => rw [hv] at h2; exact Bool.noConfusion h2
    | notImpl => rw [hv] at h2; exact Bool.noConfusion h2
    | pyNone => rw [hv] at h2; exact Bool.noConfusion h2
  rw [hs, ht]
  simp only [theOkA]
  obtain ⟨mA, Ea, Pa, mB, Eb, Pb, Sq, hmA, htA, hPa, hmB, htB, hPb, hSq, hmk⟩ :=
    addPipeline_ok_inv (addE_okv_inv hs)
  obtain ⟨mB', Eb', Pb', mA', Ea', Pa', Tq, hmB', htB', hPb', hmA', htA', hPa', hTq, hmk'⟩ :=
    addPipeline_ok_inv (addE_okv_inv ht)
  obtain ⟨_, _, _, _, hsq, hsn0, hsn1⟩ := mkNQ_pair_inv hmk
  obtain ⟨_, _, _, _, htq, htn0, htn1⟩ := mkNQ_pair_inv hmk'
  obtain ⟨hd0ab, hd1ab, hSd0, hSd1, hSent⟩ := qAdd_ok_inv hSq
  obtain ⟨hd0ba, hd1ba, hTd0, hTd1, hTent⟩ := qAdd_ok_inv hTq
  have hmAinv : ∀ m ∈ mA, NQInv m := fun m hm => by
    obtain ⟨p, _, hf⟩ := mapM_ok_mem hmA m hm; exact fillerMode_inv hf
  have hmBinv : ∀ m ∈ mB, NQInv m := fun m hm => by
    obtain ⟨p, _, hf⟩ := mapM_ok_mem hmB m hm; exact fillerMode_inv hf
  have hmA'inv : ∀ m ∈ mA', NQInv m := fun m hm => by
    obtain ⟨p, _, hf⟩ := mapM_ok_mem hmA' m hm; exact fillerMode_inv hf
  have hmB'inv : ∀ m ∈ mB', NQInv m := fun m hm => by
    obtain ⟨p, _, hf⟩ := mapM_ok_mem hmB' m hm; exact fillerMode_inv hf
  obtain ⟨aPn0, aPn1, aPd0, aPd1, aPent⟩ :=
    aligned_entry ha hmAinv htA hPa (pyDedup_nodup _) (pyDedup_nodup _)
  obtain ⟨bPn0, bPn1, bPd0, bPd1, bPent⟩ :=
    aligned_entry hb hmBinv htB hPb (pyDedup_nodup _) (pyDedup_nodup _)
  obtain ⟨aP'n0, aP'n1, aP'd0, aP'd1, aP'ent⟩ :=
    aligned_entry ha hmA'inv htA' hPa' (pyDedup_nodup _) (pyDedup_nodup _)
  obtain ⟨bP'n0, bP'n1, bP'd0, bP'd1, bP'ent⟩ :=
    aligned_entry hb hmB'inv htB' hPb' (pyDedup_nodup _) (pyDedup_nodup _)
  have hmemn0 : ∀ nm, nm ∈ (addReq a b).1 ↔ nm ∈ (addReq b a).1 := fun nm => by
    simp [addReq, mem_pyDedup, List.mem_append, or_comm]
  have hmemn1 : ∀ nm, nm ∈ (addReq a b).2 ↔ nm ∈ (addReq b a).2 := fun nm => by
    simp [addReq, mem_pyDedup, List.mem_append, or_comm]
  have hmodesA : mA.Perm mA' := by
    rw [mapM_ok_map hmA, mapM_ok_map hmA']
    refine List.Perm.map _ (findMissingDict_perm b _ _ ?_ ?_)
    · intro nm; simp [findMissing, List.mem_filter, hmemn0 nm]
    · intro nm; simp [findMissing, List.mem_filter, hmemn1 nm]
  have hmodesB : mB.Perm mB' := by
    rw [mapM_ok_map hmB, mapM_ok_map hmB']
    refine List.Perm.map _ (findMissingDict_perm a _ _ ?_ ?_)
    · intro nm; simp [findMissing, List.mem_filter, hmemn0 nm]
    · intro nm; simp [findMissing, List.mem_filter, hmemn1 nm]
  have compA : (a :: mA).Perm (a :: mA') := hmodesA.cons a
  have compB : (b :: mB).Perm (b :: mB') := hmodesB.cons b
  obtain ⟨hEaq, hEan0, hEan1, hEand0, hEand1, _, _, _⟩ := tensorN_ok_inv htA
  obtain ⟨hEbq, hEbn0, hEbn1, hEbnd0, hEbnd1, _, _, _⟩ := tensorN_ok_inv htB
  have hdisjA0 : ((( a :: mA).map (fun X => X.names0)).flatten).Nodup := hEan0 ▸ hEand0
  have hdisjA1 : ((( a :: mA).map (fun X => X.names1)).flatten).Nodup := hEan1 ▸ hEand1
  have hdisjB0 : ((( b :: mB).map (fun X => X.names0)).flatten).Nodup := hEbn0 ▸ hEbnd0
  have hdisjB1 : ((( b :: mB).map (fun X => X.names1)).flatten).Nodup := hEbn1 ▸ hEbnd1
  have hu := permPair_ok t (addReq a b).1 (addReq a b).2
    (fun nm hm => by rw [htn0]; exact (hmemn0 nm).mp hm)
    (fun nm hm => by rw [htn1]; exact (hmemn1 nm).mp hm)
    (pyDedup_nodup _) (pyDedup_nodup _)
  refine ⟨_, hu, ?_, ?_, ?_, ?_, ?_⟩
  · exact hsn0.symm
  · exact hsn1.symm
  · show ((addReq a b).1.map (fun nm => t.names0.indexOf nm)).map
        (fun i => t.q.dims0.getD i 0) = s.q.dims0
    rw [htn0, htq, hTd0, hd0ba, aP'd0, hsq, hSd0, aPd0, List.map_map]
    refine List.map_congr_left (fun nm hm => ?_)
    show ((addReq b a).1.map _).getD ((addReq b a).1.indexOf nm) 0 = _
    rw [getD_map_indexOf _ _ _ nm ((hmemn0 nm).mp hm)]
    exact (dimLook_perm _ _ compA hdisjA0 nm).symm
  · show ((addReq a b).2.map (fun nm => t.names1.indexOf nm)).map
        (fun i => t.q.dims1.getD i 0) = s.q.dims1
    rw [htn1, htq, hTd1, hd1ba, aP'd1, hsq, hSd1, aPd1, List.map_map]
    refine List.map_congr_left (fun nm hm => ?_)
    show ((addReq b a).2.map _).getD ((addReq b a).2.indexOf nm) 0 = _
    rw [getD_map_indexOf _ _ _ nm ((hmemn1 nm).mp hm)]
    exact (dimLook_perm _ _ compA hdisjA1 nm).symm
  · intro r c hr hc
    have hrl : r.length = (addReq a b).1.length := by
      rw [hr, hsq, hSd0, aPd0, List.length_map]
    have hcl : c.length = (addReq a b).2.length := by
      rw [hc, hsq, hSd1, aPd1, List.length_map]
    have htd0len : t.q.dims0.length = (addReq b a).1.length := by
      rw [htq, hTd0, hd0ba, aP'd0, List.length_map]
    have htd1len : t.q.dims1.length = (addReq b a).2.length := by
      rw [htq, hTd1, hd1ba, aP'd1, List.length_map]
    show t.q.entry
        (unperm ((addReq a b).1.map (fun nm => t.names0.indexOf nm)) t.q.dims0.length r)
        (unperm ((addReq a b).2.map (fun nm => t.names1.indexOf nm)) t.q.dims1.length c)
        = s.q.entry r c
    rw [htn0, htn1, htd0len, htd1len, htq, hTent, hsq, hSent]
    have hw0len : (unperm ((addReq a b).1.map (fun nm => (addReq b a).1.indexOf nm))
        (addReq b a).1.length r).length = (addReq b a).1.length := by
      simp [unperm]
    have hw1len : (unperm ((addReq a b).2.map (fun nm => (addReq b a).2.indexOf nm))
        (addReq b a).2.length c).length = (addReq b a).2.length := by
      simp [unperm]
    rw [bP'ent _ _ hw0len hw1len, aP'ent _ _ hw0len hw1len,
        aPent r c hrl hcl, bPent r c hrl hcl]
    have hfun0 : dig (addReq b a).1
        (unperm ((addReq a b).1.map (fun nm => (addReq b a).1.indexOf nm))
          (addReq b a).1.length r) = dig (addReq a b).1 r :=
      funext (fun nm => dig_transport (pyDedup_nodup _) (pyDedup_nodup _) hmemn0 hrl nm)
    have hfun1 : dig (addReq b a).2
        (unperm ((addReq a b).2.map (fun nm => (addReq b a).2.indexOf nm))
          (addReq b a).2.length c) = dig (addReq a b).2 c :=
      funext (fun nm => dig_transport (pyDedup_nodup _) (pyDedup_nodup _) hmemn1 hcl nm)
    rw [hfun0, hfun1]
    rw [(compA.map _).prod_eq, (compB.map _).prod_eq]
    exact add_comm _ _

/-- C4 witness: the concrete single-mode operators `cX` (mode a) and `cY`
(mode b); both additions succeed and the commutation conclusion applies. -/
theorem c4_add_commutes_witness :
    NQInv cX ∧ NQInv cY ∧ isOkA (addE cX cY) = true ∧ isOkA (addE cY cX) = true ∧
    (∃ u, permPair (theOkA (addE cY cX)) (addReq cX cY).1 (addReq cX cY).2 = .ok u ∧
      u.names0 = (theOkA (addE cX cY)).names0 ∧
      u.names1 = (theOkA (addE cX cY)).names1 ∧
      u.q.dims0 = (theOkA (addE cX cY)).q.dims0 ∧
      u.q.dims1 = (theOkA (addE cX cY)).q.dims1 ∧
      ∀ r c, r.length = (theOkA (addE cX cY)).q.dims0.length →
             c.length = (theOkA (addE cX cY)).q.dims1.length →
        u.q.entry r c = (theOkA (addE cX cY)).q.entry r c) :=
  ⟨by decide, by decide, by decide, by decide,
   c4_add_commutes cX cY (by decide) (by decide) (by decide) (by decide)⟩
